import Mathlib

/-!
Verification development for the `ngp` recursive pattern search tool
(`src/ngp.c`).  The C code is shallowly embedded: a mapped file is a list
of bytes (`Nat`, with `'\n' = 10` and NUL = 0), and the scanner loop of
`worker_thread`, the merge loop of `save_thread`, the result-store
operations, the `bmh`/`strstr` matchers, the config-file tokenizer, the
subsearch construction and the UI cursor movement are translated into
executable Lean functions.  The properties claimed about them are proved
or refuted below.
-/

namespace Ngp

/-! ### File scanner: `parse_file` / `worker_thread` (src/ngp.c:1244-1470) -/

/-- One byte of a mapped file, viewed unsigned (0..255). -/
abbrev Byte := Nat

/-- Helper for `strchrNl`: scan the suffix starting at absolute index `i`
for a newline, stopping at a NUL byte. -/
def strchrGo : List Byte → Nat → Option Nat
  | [], _ => none
  | b :: t, i => if b = 10 then some i else if b = 0 then none else strchrGo t (i + 1)

/-- `strchr(start + p, '\n')` on the mapped file: the first index `≥ p`
holding a newline, scanning left to right and stopping (NULL, i.e. `none`)
at a NUL byte or at the end of the mapping. -/
def strchrNl (f : List Byte) (p : Nat) : Option Nat :=
  strchrGo (f.drop p) p

theorem strchrGo_some {t : List Byte} : ∀ {i e : Nat}, strchrGo t i = some e →
    i ≤ e ∧ e < i + t.length ∧ t.getD (e - i) 0 = 10 := by
  induction t with
  | nil => intro i e h; simp [strchrGo] at h
  | cons b t ih =>
    intro i e h
    by_cases hb : b = 10
    · simp [strchrGo, hb] at h
      subst h
      simp [hb]
    · by_cases hz : b = 0
      · simp [strchrGo, hb, hz] at h
      · simp [strchrGo, hb, hz] at h
        obtain ⟨h1, h2, h3⟩ := ih h
        refine ⟨by omega, by simp; omega, ?_⟩
        have he : e - i = (e - (i + 1)) + 1 := by omega
        simpa [he] using h3

theorem strchrNl_some {f : List Byte} {p e : Nat} (h : strchrNl f p = some e) :
    p ≤ e ∧ e < f.length ∧ f.getD e 0 = 10 := by
  obtain ⟨h1, h2, h3⟩ := strchrGo_some (t := f.drop p) h
  have hlen : p + (f.drop p).length = max p f.length := by
    simp [List.length_drop]; omega
  refine ⟨h1, by omega, ?_⟩
  have he : e < f.length := by omega
  rwa [List.getD_eq_getElem?_getD, List.getElem?_drop,
    show p + (e - p) = e by omega, ← List.getD_eq_getElem?_getD] at h3

/-- The scan loop of `worker_thread` (src/ngp.c:1429-1460) over the byte
range `[p, stop)`: while `p < stop` and `strchr(p, '\n')` finds a newline
at `e`, record the line `f[p..e)` together with the current 1-based local
line number, then continue at `e + 1`.  Returns all recorded lines (the
caller filters them by the matcher, which does not influence the loop)
together with the final value of `line_count`. -/
def scanGo (f : List Byte) (stop : Nat) (p : Nat) (count : Nat) :
    List (Nat × List Byte) × Nat :=
  if hp : p < stop then
    match he : strchrNl f p with
    | some e =>
      let r := scanGo f stop (e + 1) (count + 1)
      ((count, (f.drop p).take (e - p)) :: r.1, r.2)
    | none => ([], count)
  else ([], count)
termination_by f.length - p
decreasing_by
  have := strchrNl_some he
  omega

/-- `parse_file` (src/ngp.c:1284-1293): the split point `filep.mid` as an
index into the file: `strchr(p + size/2, '\n') + 1` when a newline exists
at or after the midpoint byte, else `p + size - 1`. -/
def filepMid (f : List Byte) : Nat :=
  match strchrNl f (f.length / 2) with
  | some e => e + 1
  | none => f.length - 1

/-- Worker 0 of `worker_thread` (src/ngp.c:1420-1423): `start = filep.start`,
`end = filep.mid - 1`, `line_count` starting at 1. -/
def workerHalf0 (f : List Byte) : List (Nat × List Byte) × Nat :=
  scanGo f (filepMid f - 1) 0 1

/-- Worker 1 of `worker_thread` (src/ngp.c:1417-1419): `start = filep.mid`,
`end = filep.start + filep.size`. -/
def workerHalf1 (f : List Byte) : List (Nat × List Byte) × Nat :=
  scanGo f f.length (filepMid f) 1

/-- `filep.midline` (src/ngp.c:1461-1463): worker 0 stores `line_count - 1`. -/
def midlineOf (f : List Byte) : Nat := (workerHalf0 f).2 - 1

/-- The lines a worker actually reports: those whose text satisfies the
configured matcher (src/ngp.c:1431). -/
def matchesOf (pred : List Byte → Bool) (lines : List (Nat × List Byte)) :
    List (Nat × List Byte) :=
  lines.filter fun nl => pred nl.2

/-- `save_thread`'s merged view of one file (src/ngp.c:1359-1383):
worker 0's matches in order, then worker 1's matches with `filep.midline`
added to each local line number. -/
def mergedMatches (pred : List Byte → Bool) (f : List Byte) :
    List (Nat × List Byte) :=
  matchesOf pred (workerHalf0 f).1 ++
    (matchesOf pred (workerHalf1 f).1).map fun nl => (nl.1 + midlineOf f, nl.2)

/-- Specification-side reference (spec §8.4): a single-threaded scan of the
whole file, i.e. the same loop run once over `[start, start + size)`. -/
def singleMatches (pred : List Byte → Bool) (f : List Byte) :
    List (Nat × List Byte) :=
  matchesOf pred (scanGo f f.length 0 1).1

/-- The failing input for the split/merge equivalence: the file
`"a\n\n\nb\n"`. -/
def splitBugFile : List Byte := [97, 10, 10, 10, 98, 10]

/-- A case-sensitive literal matcher for the single byte `'b'`. -/
def predB (l : List Byte) : Bool := l.contains 98

theorem scanGo_eq (f : List Byte) (stop p count : Nat) :
    scanGo f stop p count =
      if p < stop then
        match strchrNl f p with
        | some e =>
          ((count, (f.drop p).take (e - p)) :: (scanGo f stop (e + 1) (count + 1)).1,
            (scanGo f stop (e + 1) (count + 1)).2)
        | none => ([], count)
      else ([], count) := by
  by_cases hp : p < stop
  · rw [scanGo]
    simp only [dif_pos hp]
    cases he : strchrNl f p <;> simp [he, hp]
  · rw [scanGo]
    simp [hp]

theorem strchrGo_none {t : List Byte} (hz : ∀ b ∈ t, b ≠ 0) :
    ∀ {i : Nat}, strchrGo t i = none ↔ ∀ b ∈ t, b ≠ 10 := by
  induction t with
  | nil => intro i; simp [strchrGo]
  | cons b t ih =>
    intro i
    by_cases hb : b = 10
    · simp [strchrGo, hb]
    · have hbz : b ≠ 0 := hz b (by simp)
      have ihz : ∀ x ∈ t, x ≠ 0 := fun x hx => hz x (by simp [hx])
      simp [strchrGo, hb, hbz, ih ihz]

theorem getD_mem_of_lt {α : Type} (l : List α) (d : α) (e : Nat)
    (he : e < l.length) : l.getD e d ∈ l := by
  rw [List.getD_eq_getElem l d he]
  exact List.getElem_mem he

/-- If `strchr` from `q` finds no newline then no byte at or after `q` is a
newline (for a NUL-free file). -/
theorem no_nl_from {f : List Byte} {q : Nat} (hz : ∀ b ∈ f, b ≠ 0)
    (hnone : strchrNl f q = none) :
    ∀ e, q ≤ e → e < f.length → f.getD e 0 ≠ 10 := by
  intro e hqe helen
  have hzd : ∀ b ∈ f.drop q, b ≠ 0 := fun b hb => hz b (List.drop_subset q f hb)
  have hall : ∀ b ∈ f.drop q, b ≠ 10 := (strchrGo_none hzd).mp hnone
  have hlt : e - q < (f.drop q).length := by simp [List.length_drop]; omega
  have hget : f.getD e 0 = (f.drop q).getD (e - q) 0 := by
    rw [List.getD_eq_getElem?_getD, List.getD_eq_getElem?_getD, List.getElem?_drop,
      show q + (e - q) = e by omega]
  rw [hget]
  exact hall _ (getD_mem_of_lt _ _ _ hlt)

theorem strchrNl_none_of_ge {f : List Byte} {q p : Nat} (hz : ∀ b ∈ f, b ≠ 0)
    (hnone : strchrNl f q = none) (hqp : q ≤ p) : strchrNl f p = none := by
  have hzd : ∀ b ∈ f.drop p, b ≠ 0 := fun b hb => hz b (List.drop_subset p f hb)
  rw [strchrNl, strchrGo_none hzd]
  intro b hb
  have hmem : ∃ k, k < (f.drop p).length ∧ (f.drop p).getD k 0 = b := by
    obtain ⟨k, hk, hbk⟩ := List.mem_iff_getElem.mp hb
    exact ⟨k, hk, by rw [List.getD_eq_getElem _ 0 hk, hbk]⟩
  obtain ⟨k, hk, hbk⟩ := hmem
  have hget : (f.drop p).getD k 0 = f.getD (p + k) 0 := by
    rw [List.getD_eq_getElem?_getD, List.getD_eq_getElem?_getD, List.getElem?_drop]
  have hlen : p + k < f.length := by
    have := List.length_drop p f
    omega
  have := no_nl_from hz hnone (p + k) (by omega) hlen
  rw [← hbk, hget]
  exact this

theorem matchesOf_cons (pred : List Byte → Bool) (x : Nat × List Byte)
    (l : List (Nat × List Byte)) :
    matchesOf pred (x :: l) =
      if pred x.2 then x :: matchesOf pred l else matchesOf pred l := by
  simp [matchesOf, List.filter_cons]

/-- In the "no newline at or after the midpoint" case, the matches of the
full-range scan equal the matches of the `[0, size - 2)` scan: the extra
iterations can only contribute empty lines, which no matcher accepts
(`pred [] = false`). -/
theorem scan_trunc {f : List Byte} {pred : List Byte → Bool}
    (hz : ∀ b ∈ f, b ≠ 0) (hnone : strchrNl f (f.length / 2) = none)
    (hp0 : pred [] = false) :
    ∀ n p count, f.length - p ≤ n →
      matchesOf pred (scanGo f f.length p count).1 =
        matchesOf pred (scanGo f (f.length - 2) p count).1 := by
  intro n
  induction n with
  | zero =>
    intro p count hn
    have hp : ¬p < f.length := by omega
    have hp2 : ¬p < f.length - 2 := by omega
    rw [scanGo_eq, scanGo_eq, if_neg hp, if_neg hp2]
  | succ n ih =>
    intro p count hn
    by_cases hp : p < f.length
    · cases he : strchrNl f p with
      | none =>
        rw [scanGo_eq, scanGo_eq, he]
        by_cases hp2 : p < f.length - 2 <;> simp [hp, hp2, matchesOf]
      | some e =>
        obtain ⟨hpe, helen, he10⟩ := strchrNl_some he
        have hehalf : e < f.length / 2 := by
          by_contra hcon
          exact no_nl_from hz hnone e (by omega) helen he10
        by_cases hp2 : p < f.length - 2
        · rw [scanGo_eq, scanGo_eq, he, if_pos hp, if_pos hp2]
          simp only [matchesOf_cons]
          rw [ih (e + 1) (count + 1) (by omega)]
        · -- `p ≥ size - 2` and a newline at `e ≥ p` with `e < size/2`
          -- forces `size ≤ 3` and `e = p`: the found line is empty.
          have hsz : f.length ≤ 3 := by omega
          have hep : e = p := by omega
          have htext : (f.drop p).take (e - p) = [] := by
            simp [hep]
          rw [scanGo_eq, scanGo_eq, he, if_pos hp, if_neg hp2]
          dsimp only
          rw [htext, matchesOf_cons]
          simp only [hp0, if_false]
          rw [ih (e + 1) (count + 1) (by omega)]
          have hp2e : ¬e + 1 < f.length - 2 := by omega
          rw [scanGo_eq, if_neg hp2e]
          simp [matchesOf]
    · have hp2 : ¬p < f.length - 2 := by omega
      rw [scanGo_eq, scanGo_eq, if_neg hp, if_neg hp2]

/-- **C1** (code bug.)  The claim: for every newline-terminated file and the
legal split point, merging the two workers' matches (second half offset by
worker 0's observed line count) equals a single-threaded scan.  The code
violates this: on the file `"a\n\n\nb\n"` with pattern `"b"`, worker 0's
range is `[start, mid - 1)`, so the empty line ending exactly at the split
newline is scanned by neither worker and `filep.midline` is `2` instead of
`3`; the merged result reports the match at line 3 whereas a
single-threaded scan reports it at line 4. -/
theorem c1_split_merge_divergence :
    mergedMatches predB splitBugFile = [(3, [98])] ∧
    singleMatches predB splitBugFile = [(4, [98])] ∧
    mergedMatches predB splitBugFile ≠ singleMatches predB splitBugFile := by
  refine ⟨?_, ?_, ?_⟩ <;>
    simp [mergedMatches, singleMatches, matchesOf, workerHalf0, workerHalf1,
      midlineOf, scanGo, filepMid, strchrNl, strchrGo, splitBugFile, predB]

/-- **C5** (counterexample.)  The claim states the halves are
`[start, split)` and `[split, end)`.  Worker 0 actually stops at
`filep.mid - 1` (src/ngp.c:1423), so on `"a\n\n\nb\n"` the empty third
line, which ends at the split newline and therefore lies inside the
claimed first half `[start, split)`, is scanned by neither worker. -/
theorem c5_first_half_cex :
    (workerHalf0 splitBugFile).1 = [(1, [97]), (2, [])] ∧
    (scanGo splitBugFile (filepMid splitBugFile) 0 1).1 =
      [(1, [97]), (2, []), (3, [])] ∧
    (workerHalf1 splitBugFile).1 = [(1, [98])] := by
  refine ⟨?_, ?_, ?_⟩ <;>
    simp [workerHalf0, workerHalf1, scanGo, filepMid, strchrNl, strchrGo,
      splitBugFile]

/-- **C5** (amended.)  For every non-empty NUL-free file: the split point is
placed just after the first newline at or after the midpoint byte when one
exists; the first worker scans line starts in `[start, split - 1)` (one byte
short of the claimed `[start, split)`).  When no newline exists at or after
the midpoint, the split point is the last byte of the file, the second
worker scans no line at all, and — for any matcher rejecting the empty
line — the first worker's matches are exactly those of a single-threaded
scan of the whole file. -/
theorem c5_split_point_amended (f : List Byte) (pred : List Byte → Bool)
    (hne : f ≠ []) (hz : ∀ b ∈ f, b ≠ 0) (hp0 : pred [] = false) :
    (∀ e, strchrNl f (f.length / 2) = some e → filepMid f = e + 1) ∧
    (strchrNl f (f.length / 2) = none →
      filepMid f = f.length - 1 ∧
      (workerHalf1 f).1 = [] ∧
      mergedMatches pred f = singleMatches pred f) := by
  have hlen : 1 ≤ f.length := by
    cases f with
    | nil => exact absurd rfl hne
    | cons a t => simp
  constructor
  · intro e he
    simp [filepMid, he]
  · intro hnone
    have hmid : filepMid f = f.length - 1 := by simp [filepMid, hnone]
    refine ⟨hmid, ?_, ?_⟩
    · rw [workerHalf1, hmid, scanGo_eq]
      have h1 : f.length - 1 < f.length := by omega
      rw [if_pos h1, strchrNl_none_of_ge hz hnone (by omega)]
    · have h1 : (workerHalf1 f).1 = [] := by
        rw [workerHalf1, hmid, scanGo_eq]
        have h1 : f.length - 1 < f.length := by omega
        rw [if_pos h1, strchrNl_none_of_ge hz hnone (by omega)]
      rw [mergedMatches, h1]
      have hstop : filepMid f - 1 = f.length - 2 := by omega
      rw [singleMatches, scan_trunc hz hnone hp0 f.length 0 1 (by omega),
        workerHalf0, hstop]
      simp [matchesOf]

/-- Witness for `c5_split_point_amended`: the two-byte file `"ab"` (no
newline anywhere, in particular none at or after the midpoint). -/
theorem c5_split_point_amended_witness :
    ([97, 98] : List Byte) ≠ [] ∧
    (workerHalf1 [97, 98]).1 = [] ∧
    mergedMatches predB [97, 98] = singleMatches predB [97, 98] := by
  have h := c5_split_point_amended [97, 98] predB (by decide) (by decide)
    (by decide)
  have hnone : strchrNl [97, 98] ([97, 98].length / 2) = none := by
    simp [strchrNl, strchrGo]
  obtain ⟨-, h2⟩ := h
  obtain ⟨-, h3, h4⟩ := h2 hnone
  exact ⟨by decide, h3, h4⟩

/-! ### Result store: `struct entry`, `save_thread`, `subsearch`
(src/ngp.c:63-66, 906-932, 1343-1392, 1652-1684) -/

/-- One `struct entry` (src/ngp.c:63-66): the stored text (`data`) and the
line number (`line`, 0 for file headers).  The extra field `hdr` is a ghost
tag recording which operation appended the entry — `true` for
`mainsearch_add_file` and the subsearch header flush, `false` for
`mainsearch_add_line` and the subsearch line copy.  It has no counterpart
in the C struct; claim C10 is precisely the statement that `line = 0`
recovers it. -/
structure Entry where
  hdr : Bool
  data : List Byte
  line : Nat
deriving DecidableEq, Repr

/-- `is_file` (src/ngp.c:408-411) on the entry at index `i`:
`!entries[index].line`.  The default handed to `getD` is an arbitrary
non-header; every use below is guarded by `i < s.length`. -/
def isFileIdx (s : List Entry) (i : Nat) : Bool :=
  (s.getD i ⟨false, [], 1⟩).line == 0

/-- One iteration of `save_thread`'s merge (src/ngp.c:1359-1383): if either
worker reported matches, append the file header (`mainsearch_add_file`,
line number 0), then worker 0's lines, then worker 1's lines with
`filep.midline` added (`mainsearch_add_line`); otherwise append nothing
and free the file name. -/
def mergeResults (store : List Entry) (name : List Byte)
    (r0 r1 : List (Nat × List Byte)) (midline : Nat) : List Entry :=
  if r0 = [] ∧ r1 = [] then store
  else
    store ++ ((⟨true, name, 0⟩ : Entry) ::
      ((r0.map fun nl => (⟨false, nl.2, nl.1⟩ : Entry)) ++
        (r1.map fun nl => (⟨false, nl.2, nl.1 + midline⟩ : Entry))))

/-- The main search store after the pipeline has scanned a list of
`(path, content)` files in order. -/
def mainStoreOf (pred : List Byte → Bool)
    (files : List (List Byte × List Byte)) : List Entry :=
  files.foldl
    (fun s nc =>
      mergeResults s nc.1 (matchesOf pred (workerHalf0 nc.2).1)
        (matchesOf pred (workerHalf1 nc.2).1) (midlineOf nc.2))
    []

/-- The subsearch construction loop (src/ngp.c:1652-1684): iterate the
parent entries in order; a header is buffered (`new_data`/`orphan_file`)
but not yet appended; a line whose text matches the subsearch pattern
first flushes the buffered header (if any) and is then appended with its
parent line number. -/
def subsearchGo (pred : List Byte → Bool) :
    List Entry → Option (List Byte) → List Entry
  | [], _ => []
  | e :: rest, buf =>
    if e.line = 0 then subsearchGo pred rest (some e.data)
    else if pred e.data then
      match buf with
      | some h =>
        (⟨true, h, 0⟩ : Entry) :: (⟨false, e.data, e.line⟩ : Entry) ::
          subsearchGo pred rest none
      | none => (⟨false, e.data, e.line⟩ : Entry) :: subsearchGo pred rest none
    else subsearchGo pred rest buf

/-- The store of a subsearch child derived from `father`'s store
(src/ngp.c:1652, `orphan_file = 0`, no buffered header initially). -/
def subsearchStore (pred : List Byte → Bool) (father : List Entry) :
    List Entry :=
  subsearchGo pred father none

/-- Store well-formedness, stated exactly as in the claim: every match-line
entry at index `i` has a header entry at some `j < i` with no header
strictly between `j` and `i`, and every header entry is followed by at
least one match line before the next header or the end of the store. -/
def WFStore (s : List Entry) : Prop :=
  (∀ i, i < s.length → isFileIdx s i = false →
    ∃ j, j < i ∧ isFileIdx s j = true ∧
      ∀ k, j < k → k < i → isFileIdx s k = false) ∧
  (∀ j, j < s.length → isFileIdx s j = true →
    ∃ i, j < i ∧ i < s.length ∧ isFileIdx s i = false ∧
      ∀ k, j < k → k < i → isFileIdx s k = false)

/-- Every header is immediately followed by a match line (a strengthened,
append-friendly form of the second half of `WFStore`). -/
def HeadersFollowed (s : List Entry) : Prop :=
  ∀ j, j < s.length → isFileIdx s j = true →
    j + 1 < s.length ∧ isFileIdx s (j + 1) = false

/-- Every match line has some header before it. -/
def LinesCovered (s : List Entry) : Prop :=
  ∀ i, i < s.length → isFileIdx s i = false →
    ∃ j, j < i ∧ isFileIdx s j = true

theorem isFileIdx_cons_succ (e : Entry) (s : List Entry) (i : Nat) :
    isFileIdx (e :: s) (i + 1) = isFileIdx s i := rfl

theorem isFileIdx_cons_zero (e : Entry) (s : List Entry) :
    isFileIdx (e :: s) 0 = (e.line == 0) := rfl

theorem isFileIdx_append_left {s t : List Entry} {i : Nat}
    (h : i < s.length) : isFileIdx (s ++ t) i = isFileIdx s i := by
  unfold isFileIdx
  rw [List.getD_eq_getElem?_getD, List.getD_eq_getElem?_getD,
    List.getElem?_append, if_pos h]

theorem isFileIdx_append_right {s t : List Entry} {i : Nat}
    (h : s.length ≤ i) : isFileIdx (s ++ t) i = isFileIdx t (i - s.length) := by
  unfold isFileIdx
  rw [List.getD_eq_getElem?_getD, List.getD_eq_getElem?_getD,
    List.getElem?_append, if_neg (by omega)]

theorem HF_append_block {s : List Entry} (hs : HeadersFollowed s)
    (name : List Byte) {lines : List Entry} (hne : lines ≠ [])
    (hl : ∀ e ∈ lines, e.line ≠ 0) :
    HeadersFollowed (s ++ ((⟨true, name, 0⟩ : Entry) :: lines)) := by
  intro j hj hdr
  have hlen : (s ++ ((⟨true, name, 0⟩ : Entry) :: lines)).length =
      s.length + 1 + lines.length := by simp; omega
  have hlines : 1 ≤ lines.length := by
    cases lines with
    | nil => exact absurd rfl hne
    | cons a t => simp
  rcases lt_trichotomy j s.length with hjs | hjs | hjs
  · rw [isFileIdx_append_left hjs] at hdr
    obtain ⟨h1, h2⟩ := hs j hjs hdr
    refine ⟨by omega, ?_⟩
    rw [isFileIdx_append_left h1]
    exact h2
  · subst hjs
    refine ⟨by omega, ?_⟩
    rw [isFileIdx_append_right (by omega)]
    have hidx : s.length + 1 - s.length = 1 := by omega
    rw [hidx, isFileIdx_cons_succ]
    have hmem : lines.getD 0 ⟨false, [], 1⟩ ∈ lines :=
      getD_mem_of_lt _ _ _ (by omega)
    have hnz := hl _ hmem
    simp only [isFileIdx, beq_eq_false_iff_ne, ne_eq]
    exact hnz
  · -- `j` points into the appended lines, which are all match lines:
    -- contradiction with `hdr`.
    exfalso
    rw [isFileIdx_append_right (by omega)] at hdr
    have hd : j - s.length = (j - s.length - 1) + 1 := by omega
    rw [hd, isFileIdx_cons_succ] at hdr
    have hjl : j - s.length - 1 < lines.length := by omega
    have hmem : lines.getD (j - s.length - 1) ⟨false, [], 1⟩ ∈ lines :=
      getD_mem_of_lt _ _ _ hjl
    have hnz := hl _ hmem
    simp only [isFileIdx, beq_iff_eq] at hdr
    exact hnz hdr

theorem LC_append_block {s : List Entry} (hs : LinesCovered s)
    (name : List Byte) (lines : List Entry) :
    LinesCovered (s ++ ((⟨true, name, 0⟩ : Entry) :: lines)) := by
  intro i hi hline
  rcases lt_trichotomy i s.length with his | his | his
  · rw [isFileIdx_append_left his] at hline
    obtain ⟨j, hj1, hj2⟩ := hs i his hline
    exact ⟨j, hj1, by rw [isFileIdx_append_left (by omega)]; exact hj2⟩
  · exfalso
    subst his
    rw [isFileIdx_append_right (by omega)] at hline
    simp [isFileIdx] at hline
  · refine ⟨s.length, by omega, ?_⟩
    rw [isFileIdx_append_right (by omega)]
    simp [isFileIdx]

/-- Assemble the literal claim statement from the two auxiliary
invariants. -/
theorem WF_of_HF_LC {s : List Entry} (hf : HeadersFollowed s)
    (lc : LinesCovered s) : WFStore s := by
  constructor
  · intro i hi hline
    obtain ⟨j0, hj0, hP⟩ := lc i hi hline
    have hi1 : 1 ≤ i := by omega
    have hspec :
        isFileIdx s (Nat.findGreatest (fun j => isFileIdx s j = true) (i - 1)) =
          true :=
      Nat.findGreatest_spec (P := fun j => isFileIdx s j = true) (n := i - 1)
        (m := j0) (by omega) hP
    have hle : Nat.findGreatest (fun j => isFileIdx s j = true) (i - 1) ≤ i - 1 :=
      Nat.findGreatest_le _
    refine ⟨Nat.findGreatest (fun j => isFileIdx s j = true) (i - 1),
      by omega, hspec, ?_⟩
    intro k hjk hki
    have hng := Nat.findGreatest_is_greatest (n := i - 1)
      (P := fun j => isFileIdx s j = true) (k := k) hjk (by omega)
    simpa using hng
  · intro j hj hdr
    obtain ⟨h1, h2⟩ := hf j hj hdr
    exact ⟨j + 1, by omega, h1, h2, fun k hk1 hk2 => by omega⟩

theorem strchrNl_none_of_len {f : List Byte} {p : Nat} (h : f.length ≤ p) :
    strchrNl f p = none := by
  rw [strchrNl, List.drop_eq_nil_of_le h]
  rfl

/-- Line numbers reported by the scan loop are at least the initial
`line_count`. -/
theorem scanGo_count_le {f : List Byte} {stop : Nat} :
    ∀ n p c, f.length - p ≤ n → ∀ x ∈ (scanGo f stop p c).1, c ≤ x.1 := by
  intro n
  induction n with
  | zero =>
    intro p c hn x hx
    rw [scanGo_eq] at hx
    by_cases hp : p < stop
    · rw [if_pos hp, strchrNl_none_of_len (by omega)] at hx
      simp at hx
    · rw [if_neg hp] at hx
      simp at hx
  | succ n ih =>
    intro p c hn x hx
    rw [scanGo_eq] at hx
    by_cases hp : p < stop
    · rw [if_pos hp] at hx
      cases he : strchrNl f p with
      | some e =>
        rw [he] at hx
        dsimp only at hx
        obtain ⟨hpe, helen, -⟩ := strchrNl_some he
        rcases List.mem_cons.mp hx with hx | hx
        · subst hx; exact le_refl c
        · have := ih (e + 1) (c + 1) (by omega) x hx
          omega
      | none =>
        rw [he] at hx
        simp at hx
    · rw [if_neg hp] at hx
      simp at hx

theorem workerHalf0_count_le {f : List Byte} {pred : List Byte → Bool} :
    ∀ x ∈ matchesOf pred (workerHalf0 f).1, 1 ≤ x.1 := by
  intro x hx
  rw [matchesOf] at hx
  exact scanGo_count_le f.length 0 1 (by omega) x (List.mem_of_mem_filter hx)

theorem workerHalf1_count_le {f : List Byte} {pred : List Byte → Bool} :
    ∀ x ∈ matchesOf pred (workerHalf1 f).1, 1 ≤ x.1 := by
  intro x hx
  rw [matchesOf] at hx
  exact scanGo_count_le f.length (filepMid f) 1 (by omega) x
    (List.mem_of_mem_filter hx)

/-- Every entry appended by one `save_thread` merge besides the header is a
match line with a positive line number. -/
theorem mergeResults_lines_ne {pred : List Byte → Bool} {f : List Byte}
    {mid : Nat} (hm : mid = midlineOf f) :
    ∀ e ∈ ((matchesOf pred (workerHalf0 f).1).map
        fun nl => (⟨false, nl.2, nl.1⟩ : Entry)) ++
      ((matchesOf pred (workerHalf1 f).1).map
        fun nl => (⟨false, nl.2, nl.1 + mid⟩ : Entry)),
      e.line ≠ 0 := by
  intro e he
  rcases List.mem_append.mp he with he | he <;>
    obtain ⟨nl, hnl, rfl⟩ := List.mem_map.mp he
  · have := workerHalf0_count_le nl hnl
    simp
    omega
  · have := workerHalf1_count_le nl hnl
    simp
    omega

theorem mainStore_HF_LC (pred : List Byte → Bool)
    (files : List (List Byte × List Byte)) :
    HeadersFollowed (mainStoreOf pred files) ∧
      LinesCovered (mainStoreOf pred files) := by
  suffices H : ∀ (fs : List (List Byte × List Byte)) (s : List Entry),
      HeadersFollowed s → LinesCovered s →
      HeadersFollowed (fs.foldl
        (fun s nc => mergeResults s nc.1 (matchesOf pred (workerHalf0 nc.2).1)
          (matchesOf pred (workerHalf1 nc.2).1) (midlineOf nc.2)) s) ∧
      LinesCovered (fs.foldl
        (fun s nc => mergeResults s nc.1 (matchesOf pred (workerHalf0 nc.2).1)
          (matchesOf pred (workerHalf1 nc.2).1) (midlineOf nc.2)) s) by
    refine H files [] ?_ ?_ <;> intro i hi <;> simp at hi
  intro fs
  induction fs with
  | nil => intro s h1 h2; exact ⟨h1, h2⟩
  | cons nc fs ih =>
    intro s h1 h2
    simp only [List.foldl_cons]
    apply ih
    · unfold mergeResults
      by_cases hr : matchesOf pred (workerHalf0 nc.2).1 = [] ∧
          matchesOf pred (workerHalf1 nc.2).1 = []
      · rw [if_pos hr]; exact h1
      · rw [if_neg hr]
        refine HF_append_block h1 nc.1 ?_ (mergeResults_lines_ne rfl)
        intro hnil
        rcases List.append_eq_nil.mp hnil with ⟨ha, hb⟩
        exact hr ⟨List.map_eq_nil_iff.mp ha, List.map_eq_nil_iff.mp hb⟩
    · unfold mergeResults
      by_cases hr : matchesOf pred (workerHalf0 nc.2).1 = [] ∧
          matchesOf pred (workerHalf1 nc.2).1 = []
      · rw [if_pos hr]; exact h2
      · rw [if_neg hr]
        exact LC_append_block h2 nc.1 _

theorem HF_subsearchGo (pred : List Byte → Bool) :
    ∀ (rest : List Entry) (buf : Option (List Byte)),
      HeadersFollowed (subsearchGo pred rest buf) := by
  intro rest
  induction rest with
  | nil => intro buf j hj hdr; simp [subsearchGo] at hj
  | cons e rest ih =>
    intro buf
    by_cases hz : e.line = 0
    · simpa [subsearchGo, hz] using ih (some e.data)
    · by_cases hp : pred e.data
      · cases buf with
        | some h =>
          simp only [subsearchGo, hz, if_false, hp, if_true]
          intro j hj hdr
          match j with
          | 0 =>
            refine ⟨by simp, ?_⟩
            rw [show (0 : Nat) + 1 = 0 + 1 from rfl, isFileIdx_cons_succ,
              isFileIdx_cons_zero]
            simp [hz]
          | 1 =>
            rw [show (1 : Nat) = 0 + 1 from rfl, isFileIdx_cons_succ,
              isFileIdx_cons_zero] at hdr
            simp [hz] at hdr
          | (k + 2) =>
            rw [isFileIdx_cons_succ, isFileIdx_cons_succ] at hdr
            simp only [List.length_cons] at hj
            obtain ⟨hk1, hk2⟩ := ih none k (by omega) hdr
            refine ⟨by simp; omega, ?_⟩
            rw [show k + 2 + 1 = (k + 1) + 1 + 1 from rfl, isFileIdx_cons_succ,
              isFileIdx_cons_succ]
            exact hk2
        | none =>
          simp only [subsearchGo, hz, if_false, hp, if_true]
          intro j hj hdr
          match j with
          | 0 =>
            rw [isFileIdx_cons_zero] at hdr
            simp [hz] at hdr
          | (k + 1) =>
            rw [isFileIdx_cons_succ] at hdr
            simp only [List.length_cons] at hj
            obtain ⟨hk1, hk2⟩ := ih none k (by omega) hdr
            refine ⟨by simp; omega, ?_⟩
            rw [show k + 1 + 1 = (k + 1) + 1 from rfl, isFileIdx_cons_succ]
            exact hk2
      · simpa [subsearchGo, hz, hp] using ih buf

theorem LC_subsearchGo_some (pred : List Byte → Bool) :
    ∀ (rest : List Entry) (h : List Byte),
      LinesCovered (subsearchGo pred rest (some h)) := by
  intro rest
  induction rest with
  | nil => intro h i hi hline; simp [subsearchGo] at hi
  | cons e rest ih =>
    intro h
    by_cases hz : e.line = 0
    · simpa [subsearchGo, hz] using ih e.data
    · by_cases hp : pred e.data
      · simp only [subsearchGo, hz, if_false, hp, if_true]
        intro i hi hline
        match i with
        | 0 =>
          rw [isFileIdx_cons_zero] at hline
          simp at hline
        | (k + 1) =>
          refine ⟨0, by omega, ?_⟩
          rw [isFileIdx_cons_zero]
          simp
      · simpa [subsearchGo, hz, hp] using ih h

theorem LC_subsearchStore {pred : List Byte → Bool} {father : List Entry}
    (hwf : WFStore father) : LinesCovered (subsearchStore pred father) := by
  cases father with
  | nil => intro i hi hline; simp [subsearchStore, subsearchGo] at hi
  | cons e rest =>
    by_cases hz : e.line = 0
    · simpa [subsearchStore, subsearchGo, hz] using
        LC_subsearchGo_some pred rest e.data
    · exfalso
      have hlen : 0 < (e :: rest).length := by simp
      have hline : isFileIdx (e :: rest) 0 = false := by
        rw [isFileIdx_cons_zero]
        simp [hz]
      obtain ⟨j, hj, -⟩ := hwf.1 0 hlen hline
      omega

/-- **C2** (confirmed.)  Every result store built by the program is
well-formed in the claimed sense: (1) the main search store, after any
number of per-file merges by `save_thread`; (2) the store of any subsearch
child of a well-formed parent; and (3) one merge appends exactly one file
header when the file produced at least one match and none otherwise
(header count accounting over `mergeResults`). -/
theorem c2_store_well_formedness :
    (∀ (pred : List Byte → Bool) (files : List (List Byte × List Byte)),
      WFStore (mainStoreOf pred files)) ∧
    (∀ (pred : List Byte → Bool) (parent : List Entry), WFStore parent →
      WFStore (subsearchStore pred parent)) ∧
    (∀ (store : List Entry) (name : List Byte)
      (r0 r1 : List (Nat × List Byte)) (mid : Nat),
      (∀ x ∈ r0, 1 ≤ x.1) → (∀ x ∈ r1, 1 ≤ x.1) →
      (mergeResults store name r0 r1 mid).countP (fun e => e.line == 0) =
        store.countP (fun e => e.line == 0) +
          (if r0 = [] ∧ r1 = [] then 0 else 1)) := by
  refine ⟨?_, ?_, ?_⟩
  · intro pred files
    obtain ⟨h1, h2⟩ := mainStore_HF_LC pred files
    exact WF_of_HF_LC h1 h2
  · intro pred parent hwf
    exact WF_of_HF_LC (HF_subsearchGo pred parent none) (LC_subsearchStore hwf)
  · intro store name r0 r1 mid h0 h1
    unfold mergeResults
    by_cases hr : r0 = [] ∧ r1 = []
    · simp [hr]
    · rw [if_neg hr, if_neg hr, List.countP_append, List.countP_cons]
      have hz : (List.countP (fun e => e.line == 0)
          ((r0.map fun nl => (⟨false, nl.2, nl.1⟩ : Entry)) ++
            (r1.map fun nl => (⟨false, nl.2, nl.1 + mid⟩ : Entry)))) = 0 := by
        rw [List.countP_eq_zero]
        intro e he
        rcases List.mem_append.mp he with he | he <;>
          obtain ⟨nl, hnl, rfl⟩ := List.mem_map.mp he
        · have := h0 nl hnl; simp; omega
        · have := h1 nl hnl; simp; omega
      simp [hz]

theorem wf_concrete_example :
    WFStore [(⟨true, [102], 0⟩ : Entry), ⟨false, [98], 3⟩] := by
  constructor
  · intro i hi hline
    simp only [List.length_cons, List.length_nil] at hi
    match i with
    | 0 => simp [isFileIdx] at hline
    | 1 =>
      refine ⟨0, by omega, by simp [isFileIdx], ?_⟩
      intro k hk1 hk2
      omega
  · intro j hj hdr
    simp only [List.length_cons, List.length_nil] at hj
    match j with
    | 0 =>
      refine ⟨1, by omega, by simp, by simp [isFileIdx], ?_⟩
      intro k hk1 hk2
      omega
    | 1 => simp [isFileIdx] at hdr

/-- Witness for `c2_store_well_formedness`: a concrete subsearch child of a
concrete well-formed main store. -/
theorem c2_store_well_formedness_witness :
    WFStore (subsearchStore predB (mainStoreOf predB [([102], splitBugFile)])) :=
  c2_store_well_formedness.2.1 predB _
    (c2_store_well_formedness.1 predB [([102], splitBugFile)])

/-- `find_file` (src/ngp.c:558-564): climb down from `index` until an entry
with `line == 0` is found.  (In C the loop would fall off the front of the
array if no header preceded the entry; in a well-formed store it cannot,
which the theorem below reflects by returning index 0.) -/
def findFile (s : List Entry) : Nat → Nat
  | 0 => 0
  | i + 1 => if isFileIdx s (i + 1) then i + 1 else findFile s i

theorem mainStore_tagged (pred : List Byte → Bool)
    (files : List (List Byte × List Byte)) :
    ∀ e ∈ mainStoreOf pred files, (e.hdr = true ↔ e.line = 0) := by
  suffices H : ∀ (fs : List (List Byte × List Byte)) (s : List Entry),
      (∀ e ∈ s, (e.hdr = true ↔ e.line = 0)) →
      ∀ e ∈ fs.foldl
        (fun s nc => mergeResults s nc.1 (matchesOf pred (workerHalf0 nc.2).1)
          (matchesOf pred (workerHalf1 nc.2).1) (midlineOf nc.2)) s,
        (e.hdr = true ↔ e.line = 0) by
    exact H files [] (by intro e he; simp at he)
  intro fs
  induction fs with
  | nil => intro s hs; exact hs
  | cons nc fs ih =>
    intro s hs
    simp only [List.foldl_cons]
    apply ih
    intro e he
    unfold mergeResults at he
    by_cases hr : matchesOf pred (workerHalf0 nc.2).1 = [] ∧
        matchesOf pred (workerHalf1 nc.2).1 = []
    · rw [if_pos hr] at he
      exact hs e he
    · rw [if_neg hr] at he
      rcases List.mem_append.mp he with he | he
      · exact hs e he
      · rcases List.mem_cons.mp he with he | he
        · subst he; simp
        · have := @mergeResults_lines_ne pred nc.2 _ rfl e he
          have hhdr : e.hdr = false := by
            rcases List.mem_append.mp he with hm | hm <;>
              obtain ⟨nl, hnl, rfl⟩ := List.mem_map.mp hm <;> rfl
          simp [hhdr, this]

theorem subsearchGo_tagged (pred : List Byte → Bool) :
    ∀ (rest : List Entry) (buf : Option (List Byte)),
      ∀ e ∈ subsearchGo pred rest buf, (e.hdr = true ↔ e.line = 0) := by
  intro rest
  induction rest with
  | nil => intro buf e he; simp [subsearchGo] at he
  | cons x rest ih =>
    intro buf e he
    by_cases hz : x.line = 0
    · simp only [subsearchGo, hz, if_true, reduceIte] at he
      exact ih (some x.data) e he
    · by_cases hp : pred x.data
      · simp only [subsearchGo, hz, hp, if_false, if_true, reduceIte] at he
        cases buf with
        | some h =>
          rcases List.mem_cons.mp he with he | he
          · subst he; simp
          · rcases List.mem_cons.mp he with he | he
            · subst he; simp [hz]
            · exact ih none e he
        | none =>
          rcases List.mem_cons.mp he with he | he
          · subst he; simp [hz]
          · exact ih none e he
      · simp only [subsearchGo, hz, hp, if_false, reduceIte] at he
        exact ih buf e he

theorem findFile_header {s : List Entry} (h0 : isFileIdx s 0 = true) :
    ∀ i, isFileIdx s (findFile s i) = true := by
  intro i
  induction i with
  | zero => simpa [findFile] using h0
  | succ i ih =>
    rw [findFile]
    by_cases hi : isFileIdx s (i + 1)
    · simp [hi]
    · simpa [hi] using ih

/-- **C10** (confirmed.)  Entries are unambiguously tagged by their `line`
field: worker line numbers start at 1 (so every `mainsearch_add_line` call
stores a positive line number, second-half offsets only add to it),
`mainsearch_add_file` stores 0, the subsearch copies its parent's positive
line numbers and stores 0 for headers; hence in every store the ghost
provenance tag coincides with `line = 0`, a well-formed store starts with a
header, and `find_file`'s backward search always lands on a header. -/
theorem c10_entry_tagging :
    (∀ (f : List Byte) (pred : List Byte → Bool) (x : Nat × List Byte),
      (x ∈ matchesOf pred (workerHalf0 f).1 → 1 ≤ x.1) ∧
      (x ∈ matchesOf pred (workerHalf1 f).1 → 1 ≤ x.1)) ∧
    (∀ (pred : List Byte → Bool) (files : List (List Byte × List Byte)),
      ∀ e ∈ mainStoreOf pred files, (e.hdr = true ↔ e.line = 0)) ∧
    (∀ (pred : List Byte → Bool) (parent : List Entry),
      ∀ e ∈ subsearchStore pred parent, (e.hdr = true ↔ e.line = 0)) ∧
    (∀ s : List Entry, WFStore s → 0 < s.length → isFileIdx s 0 = true) ∧
    (∀ (s : List Entry) (i : Nat), isFileIdx s 0 = true →
      isFileIdx s (findFile s i) = true) := by
  refine ⟨?_, mainStore_tagged, ?_, ?_, ?_⟩
  · intro f pred x
    exact ⟨fun hx => workerHalf0_count_le x hx,
      fun hx => workerHalf1_count_le x hx⟩
  · intro pred parent
    exact subsearchGo_tagged pred parent none
  · intro s hwf hlen
    by_contra hcon
    have hline : isFileIdx s 0 = false := by
      cases hval : isFileIdx s 0
      · rfl
      · exact absurd hval hcon
    obtain ⟨j, hj, -⟩ := hwf.1 0 hlen hline
    omega
  · intro s i h0
    exact findFile_header h0 i

/-- Witness for `c10_entry_tagging` at concrete inputs. -/
theorem c10_entry_tagging_witness :
    (((1 : Nat), ([98] : List Byte)) ∈
        matchesOf predB (workerHalf1 splitBugFile).1 → 1 ≤ (1 : Nat)) ∧
    ((⟨true, [102], 0⟩ : Entry).hdr = true ↔ (⟨true, [102], 0⟩ : Entry).line = 0) ∧
    isFileIdx [(⟨true, [102], 0⟩ : Entry), ⟨false, [98], 3⟩] 0 = true ∧
    isFileIdx [(⟨true, [102], 0⟩ : Entry), ⟨false, [98], 3⟩]
      (findFile [(⟨true, [102], 0⟩ : Entry), ⟨false, [98], 3⟩] 1) = true := by
  refine ⟨(c10_entry_tagging.1 splitBugFile predB (1, [98])).2, ?_, ?_, ?_⟩
  · exact c10_entry_tagging.2.2.1 predB
      [(⟨true, [102], 0⟩ : Entry), ⟨false, [98], 3⟩] ⟨true, [102], 0⟩
      (by decide)
  · exact c10_entry_tagging.2.2.2.1 _ wf_concrete_example (by simp)
  · exact c10_entry_tagging.2.2.2.2
      [(⟨true, [102], 0⟩ : Entry), ⟨false, [98], 3⟩] 1 (by decide)

/-! ### Match-line truncation (worker_thread, src/ngp.c:1438-1444) -/

/-- The buffer stored for a matched line of length `L = endline - p`
(src/ngp.c:1438-1444): `line_size = (L + 1 >= 256) ? 256 : L + 1` bytes,
filled by `strncpy(tmp_str, p, line_size)` from the NUL-terminated line
(the worker has just written `'\0'` over the newline), i.e. the first
`line_size` bytes of `line ++ [0]`, zero-padded if the source were
shorter (it never is here). -/
def storedLine (line : List Byte) : List Byte :=
  let lineSize := if line.length + 1 ≥ 256 then 256 else line.length + 1
  ((line ++ [0]).take lineSize) ++
    List.replicate (lineSize - (line.length + 1)) 0

/-- The length of a stored buffer read back as a C string: the number of
bytes before the first NUL. -/
def cstrLen (b : List Byte) : Nat := (b.takeWhile fun x => !(x == 0)).length

set_option maxRecDepth 20000 in
/-- **C3** (code bug.)  The claim says a line longer than 255 bytes is
stored as its first 255 bytes followed by a NUL, so every stored text has
length at most 255.  For a line of length exactly 256 (or more),
`line_size` is 256 and `strncpy` copies 256 non-NUL bytes and **no**
terminator: the stored buffer is the first 256 bytes of the line, its
C-string length is not bounded by the buffer (256 here already exceeds
255), and it differs from the claimed `first 255 bytes ++ [0]`.  Lines of
length at most 255 are stored as claimed. -/
theorem c3_truncation_divergence :
    storedLine (List.replicate 256 97) = List.replicate 256 97 ∧
    cstrLen (storedLine (List.replicate 256 97)) = 256 ∧
    storedLine (List.replicate 256 97) ≠ List.replicate 255 97 ++ [0] ∧
    storedLine (List.replicate 255 97) = List.replicate 255 97 ++ [0] ∧
    cstrLen (storedLine (List.replicate 255 97)) = 255 := by
  refine ⟨?_, ?_, ?_, ?_, ?_⟩ <;> decide

/-! ### Subsearch rejection on invalid regex
(subsearch, src/ngp.c:1621-1689; main, src/ngp.c:1898-1903) -/

/-- The mutable per-search state relevant to claim C6 (`struct search`,
src/ngp.c:87-114): viewport index, cursor offset, entries, pattern, and
the child pointer — represented by the child's pattern, `none` for NULL. -/
structure SearchRec where
  index : Int
  cursor : Int
  entries : List Entry
  pattern : List Byte
  childPat : Option (List Byte)
deriving DecidableEq, Repr

/-- `subsearch(father)` (src/ngp.c:1621-1689): `valid` is the outcome of
`regcomp` in `is_regex_valid`, `pred` the compiled regex's line predicate.
Returns `subsearch`'s return value (`none` for NULL) together with the
father's state afterwards.  Note the code sets `father->child = child`
*before* validating the regex and returns NULL without unlinking on
failure; an empty pattern returns NULL before touching the father. -/
def subsearchKey (father : SearchRec) (pat : List Byte) (valid : Bool)
    (pred : List Byte → Bool) : Option SearchRec × SearchRec :=
  if pat = [] then (none, father)
  else
    let father2 := { father with childPat := some pat }
    if valid then
      let child : SearchRec :=
        { index := 0, cursor := 0,
          entries := subsearchStore pred father2.entries,
          pattern := pat, childPat := none }
      (some child, father2)
    else (none, father2)

/-- Which search is `current` after the `'/'` key handler of `main`
(src/ngp.c:1898-1903): the child if `subsearch` returned non-NULL, else
still the father (whose struct `subsearch` may have mutated). -/
def activeAfterSlash (father : SearchRec) (pat : List Byte) (valid : Bool)
    (pred : List Byte → Bool) : SearchRec :=
  match subsearchKey father pat valid pred with
  | (some child, _) => child
  | (none, f2) => f2

/-- **C6** (counterexample.)  The claim says that on an invalid subsearch
regex the parent's state — including its child pointer — is unchanged.
But `father->child = child` is assigned (src/ngp.c:1643) before
`is_regex_valid` runs (src/ngp.c:1648): on the pattern `"("` the parent's
child pointer changes from NULL to the abandoned child. -/
theorem c6_child_link_cex :
    (subsearchKey ⟨0, 0, [], [97], none⟩ [40] false (fun _ => true)).2.childPat
        = some [40] ∧
    (⟨0, 0, [], [97], none⟩ : SearchRec).childPat = none := by
  constructor
  · rfl
  · rfl

/-- **C6** (amended.)  On an invalid subsearch regex (non-empty pattern),
`subsearch` returns NULL and the parent remains the active context with
its result store, cursor and viewport index unchanged; only its child
pointer now refers to the abandoned child structure. -/
theorem c6_subsearch_rejected_amended (father : SearchRec) (pat : List Byte)
    (pred : List Byte → Bool) (hne : pat ≠ []) :
    (subsearchKey father pat false pred).1 = none ∧
    activeAfterSlash father pat false pred =
      { father with childPat := some pat } := by
  constructor
  · simp [subsearchKey, hne]
  · simp [activeAfterSlash, subsearchKey, hne]

/-- Witness for `c6_subsearch_rejected_amended`: the concrete invalid
pattern `"("` over a concrete parent. -/
theorem c6_subsearch_rejected_amended_witness :
    (subsearchKey ⟨0, 1, [⟨true, [102], 0⟩], [97], none⟩ [40] false
        (fun _ => true)).1 = none ∧
    activeAfterSlash ⟨0, 1, [⟨true, [102], 0⟩], [97], none⟩ [40] false
        (fun _ => true) =
      { index := 0, cursor := 1, entries := [⟨true, [102], 0⟩],
        pattern := [97], childPat := some [40] } :=
  c6_subsearch_rejected_amended ⟨0, 1, [⟨true, [102], 0⟩], [97], none⟩ [40]
    (fun _ => true) (by decide)

/-! ### Exit paths (src/ngp.c:1916-1944 and the fatal-error paths) -/

/-- The ways the `ngp` process terminates: one constructor per reachable
`exit` call in the program, plus `main`'s final `return 0`, reached when
the key loop `while ((ch = getch()))` (src/ngp.c:1872) reads a NUL
keypress (`getch() == 0`) and falls through to `return 0`
(src/ngp.c:1944).  (The `exit(0)` at src/ngp.c:876 sits under
`#if DEBUG_PERF` with `DEBUG_PERF` defined as 0, so it is compiled
out.) -/
inductive ExitCause
  | quitRoot               -- main: `q` with `current->father == NULL`: exit(-1), src/ngp.c:1917-1918
  | configMissing          -- get_config: no ngprc found: exit(-1), src/ngp.c:223-225
  | usageExit              -- usage() on help or bad arguments: exit(-1), src/ngp.c:330-331, 392-393, 537-548, 1820-1822
  | mainsearchAllocFailure -- main: malloc for mainsearch fails: exit(-1), src/ngp.c:1804-1806
  | badRegexStartup        -- main: `is_regex_valid` fails: exit(-1), src/ngp.c:1839-1841
  | semInitFailure         -- lookup_thread: a sem_init fails: exit(-1), src/ngp.c:1531-1549
  | threadCreateFailure    -- a pthread_create fails: exit(-1), src/ngp.c:1552-1562, 1861-1864
  | workerAllocFailure     -- worker_thread: malloc fails: exit(-1), src/ngp.c:1433-1442
  | subsearchAllocFailure  -- subsearch: malloc fails: exit(1), src/ngp.c:1638-1639
  | sigintReceived         -- sig_handler: SIGINT: exit(-1), src/ngp.c:1781-1785
  | doneNoHits             -- main: status == 0 && nbentry == 0: exit(0), src/ngp.c:1937-1939
  | nulKeypress            -- main: getch() == 0 ends the key loop and main returns 0, src/ngp.c:1872, 1944
deriving DecidableEq, Repr

/-- The process exit status each cause produces: the low byte of the
argument of `exit` (resp. of `main`'s return value), as observed by the
parent process (`exit(-1)` yields 255). -/
def exitCode : ExitCause → Nat
  | .quitRoot => 255
  | .configMissing => 255
  | .usageExit => 255
  | .mainsearchAllocFailure => 255
  | .badRegexStartup => 255
  | .semInitFailure => 255
  | .threadCreateFailure => 255
  | .workerAllocFailure => 255
  | .subsearchAllocFailure => 1
  | .sigintReceived => 255
  | .doneNoHits => 0
  | .nulKeypress => 0

/-- The key-loop guard `while ((ch = getch()))` (src/ngp.c:1872): the
loop keeps running on every non-zero return of `getch()` — including
`ERR` (−1) when no input is pending in `nodelay` mode — and ends on a
NUL keypress, after which `main` runs no further statement before
`return 0` (src/ngp.c:1944). -/
def keyLoopContinues (ch : Int) : Bool := ch ≠ 0

/-- The effect of the `q` key (src/ngp.c:1916-1926): exit if `current` has
no father, pop one subsearch level otherwise. -/
def quitKey (hasFather : Bool) : Option ExitCause :=
  if hasFather then none else some .quitRoot

/-- **C8** (counterexample.)  The claim says quitting normally (`q` in the
root context) exits with code 0.  The code calls `exit(-1)`
(src/ngp.c:1918), so the observed exit status is 255, not 0. -/
theorem c8_quit_exit_code_cex :
    quitKey false = some ExitCause.quitRoot ∧
    exitCode ExitCause.quitRoot = 255 := by
  decide

/-- **C8** (amended.)  Pressing `q` in the root context terminates the
process with exit status 255 (`exit(-1)`, src/ngp.c:1918), not 0; `q` in
a subsearch does not exit.  Every fatal-error exit (missing config, bad
arguments, bad startup regex, allocation, semaphore or thread-creation
failure, SIGINT) has a non-zero status.  A status of 0 is produced by
exactly the two non-error terminations: the search finishing with zero
results, and the key loop ending on a NUL keypress followed by `main`'s
`return 0`. -/
theorem c8_exit_codes_amended :
    quitKey false = some ExitCause.quitRoot ∧
    quitKey true = none ∧
    exitCode ExitCause.quitRoot = 255 ∧
    keyLoopContinues 0 = false ∧
    keyLoopContinues (-1) = true ∧
    (∀ c, exitCode c = 0 ↔
      (c = ExitCause.doneNoHits ∨ c = ExitCause.nulKeypress)) := by
  refine ⟨rfl, rfl, rfl, by decide, by decide, ?_⟩
  intro c
  cases c <;> simp [exitCode]

/-! ### Config-file parsing (get_config, src/ngp.c:196-289) -/

/-- `strchr` over a line buffer: the index of the first occurrence of a
character. -/
def charIdx (c : Char) : List Char → Option Nat
  | [] => none
  | b :: t => if b = c then some 0 else (charIdx c t).map (· + 1)

/-- The double-quoted value of a config line (src/ngp.c:243-245 and
265-267): `start = strchr(configline, '"') + 1; end = strchr(start, '"');
end[0] = 0` — the characters strictly between the first `'"'` and the
next one. -/
def quotedValue (line : List Char) : Option (List Char) :=
  match charIdx '"' line with
  | none => none
  | some i =>
    match charIdx '"' (line.drop (i + 1)) with
    | none => none
    | some j => some ((line.drop (i + 1)).take j)

/-- `strstr(hay, needle) != NULL`: `needle` occurs contiguously in
`hay`. -/
def hasSub (hay needle : List Char) : Bool :=
  (List.range (hay.length + 1)).any fun i =>
    (hay.drop i).take needle.length == needle

/-- The token sequence produced by the `strtok_r(..., " ", &start)` loop
(src/ngp.c:247-259 and 269-281): skip leading spaces, emit the maximal
space-free run as a token, repeat; no empty tokens are produced.  (The
code passes a NULL first argument with `&start` as saveptr, so glibc
resumes from `start`, i.e. it tokenizes the quoted value just
captured.) -/
def strtokSpaces : List Char → List (List Char)
  | [] => []
  | c :: t =>
    if c = ' ' then strtokSpaces t
    else (c :: (t.takeWhile fun x => !(x == ' '))) ::
      strtokSpaces (t.dropWhile fun x => !(x == ' '))
termination_by l => l.length
decreasing_by
  · simp
  · have hle := (List.dropWhile_sublist
      (l := t) (fun x => !(x == ' '))).length_le
    simp
    omega

/-- Specification-side "space-separated tokens of a string": split on
spaces and drop the empty fragments. -/
def spaceTokens (s : List Char) : List (List Char) :=
  (s.splitOn ' ').filter fun t => !t.isEmpty

/-- The NUL character: `end[0] = 0` and the `strtok_r` delimiter writes
store this byte into the shared line buffer. -/
def nulChar : Char := Char.ofNat 0

/-- The C-string view of the line buffer: `configline` as the string
functions (`strchr`, `strstr`, `strtok_r`) see it, i.e. up to but not
including the first NUL byte. -/
def cstr (buf : List Char) : List Char :=
  buf.takeWhile fun c => !(c == nulChar)

/-- The three outputs `get_config` accumulates (src/ngp.c:196-289): the
editor command (`editor_cmd`), the specific-file list
(`firstspec`/`curspec`) and the extension list (`firstext`/`curext`). -/
structure ConfigState where
  editorCmd : Option (List Char)
  specifics : List (List Char)
  extensions : List (List Char)
deriving DecidableEq, Repr

/-- `start = strchr(configline, '"') + 1; end = strchr(start, '"');
end[0] = 0` on the current buffer (src/ngp.c:234-236, 243-245, 265-267):
the offset of the value inside the buffer, the value itself (the
characters strictly between the first `'"'` of the C string and the
next one), and the buffer with the closing quote overwritten by NUL.
`none` models a strchr returning NULL: the code then computes `NULL + 1`
resp. stores through `end == NULL` and crashes. -/
def captureQuoted (buf : List Char) : Option (Nat × List Char × List Char) :=
  match charIdx '"' (cstr buf) with
  | none => none
  | some i =>
    match charIdx '"' ((cstr buf).drop (i + 1)) with
    | none => none
    | some j =>
      some (i + 1, ((cstr buf).drop (i + 1)).take j,
        buf.set (i + 1 + j) nulChar)

/-- The buffer offsets at which the `strtok_r` loop writes NUL while
tokenizing the captured value: the delimiter immediately following each
token, except after a token that runs to the end of the value (`o` is
the offset of the value inside the buffer). -/
def strtokWriteIdxs : List Char → Nat → List Nat
  | [], _ => []
  | c :: t, o =>
    if c = ' ' then strtokWriteIdxs t (o + 1)
    else
      if (t.dropWhile fun x => !(x == ' ')) = [] then []
      else
        (o + 1 + (t.takeWhile fun x => !(x == ' ')).length) ::
          strtokWriteIdxs ((t.dropWhile fun x => !(x == ' ')).tail)
            (o + 2 + (t.takeWhile fun x => !(x == ' ')).length)
termination_by l o => l.length
decreasing_by
  · simp
  · have hle := (List.dropWhile_sublist
      (l := t) (fun x => !(x == ' '))).length_le
    have htail := List.length_tail (t.dropWhile fun x => !(x == ' '))
    simp
    omega

/-- Apply a list of NUL writes to the buffer. -/
def applyWrites (buf : List Char) (idxs : List Nat) : List Char :=
  idxs.foldl (fun b k => b.set k nulChar) buf

/-- The editor branch of the `get_config` line loop (src/ngp.c:233-239):
when the C string contains the editor basename `env` (`ptr_env`, the
basename of `$EDITOR`, or `vim` when unset), capture the quoted value as
the editor command; the capture NULs the closing quote in the shared
buffer. -/
def editorBranch (env : List Char) (st : ConfigState) (buf : List Char) :
    Option (ConfigState × List Char) :=
  if hasSub (cstr buf) env then
    match captureQuoted buf with
    | none => none
    | some (_, v, buf2) => some ({ st with editorCmd := some v }, buf2)
  else some (st, buf)

/-- The `files` branch (src/ngp.c:241-261): when the C string contains
`files`, capture the quoted value, append its `strtok` tokens to the
specific-file list, and record in the buffer the NUL bytes `strtok_r`
wrote over the token-ending delimiters. -/
def filesBranch (st : ConfigState) (buf : List Char) :
    Option (ConfigState × List Char) :=
  if hasSub (cstr buf) ("files".toList) then
    match captureQuoted buf with
    | none => none
    | some (o, v, buf2) =>
      some ({ st with specifics := st.specifics ++ strtokSpaces v },
        applyWrites buf2 (strtokWriteIdxs v o))
  else some (st, buf)

/-- The `extensions` branch (src/ngp.c:263-283), identical to the `files`
branch but keyed on `extensions` and appending to the extension list. -/
def extensionsBranch (st : ConfigState) (buf : List Char) :
    Option (ConfigState × List Char) :=
  if hasSub (cstr buf) ("extensions".toList) then
    match captureQuoted buf with
    | none => none
    | some (o, v, buf2) =>
      some ({ st with extensions := st.extensions ++ strtokSpaces v },
        applyWrites buf2 (strtokWriteIdxs v o))
  else some (st, buf)

/-- One line of the `get_config` parse loop (src/ngp.c:229-284): a line
without a semicolon is skipped; otherwise the editor, `files` and
`extensions` branches run in this order on the shared, mutated line
buffer.  `none` is the NULL dereference that happens when a firing
branch finds no opening or closing quote — in particular whenever an
earlier branch already fired on the same line, since that branch
overwrote the closing quote with NUL. -/
def processConfigLine (env : List Char) (st : ConfigState)
    (line : List Char) : Option ConfigState :=
  if !((cstr line).contains ';') then some st
  else
    match editorBranch env st line with
    | none => none
    | some (st1, b1) =>
      match filesBranch st1 b1 with
      | none => none
      | some (st2, b2) =>
        match extensionsBranch st2 b2 with
        | none => none
        | some (st3, _) => some st3

theorem dropWhile_head_false {α : Type} {p : α → Bool} :
    ∀ {t : List α} {d : α} {u : List α}, t.dropWhile p = d :: u →
      p d = false := by
  intro t
  induction t with
  | nil => intro d u h; simp at h
  | cons a t ih =>
    intro d u h
    by_cases hp : p a = true
    · rw [List.dropWhile_cons, if_pos hp] at h
      exact ih h
    · have hp2 : p a = false := by
        cases hval : p a
        · rfl
        · exact absurd hval hp
      rw [List.dropWhile_cons, if_neg (by simp [hp2])] at h
      injection h with h1 h2
      subst h1
      exact hp2

theorem splitOnP_structure (p : Char → Bool) (t : List Char) :
    t.splitOnP p = (t.takeWhile fun a => !p a) ::
      (match t.dropWhile (fun a => !p a) with
       | [] => []
       | _ :: u => u.splitOnP p) := by
  induction t with
  | nil => simp [List.splitOnP_nil]
  | cons a u ih =>
    by_cases hp : p a = true
    · simp [List.splitOnP_cons, hp]
    · have hp2 : p a = false := by
        cases hval : p a
        · rfl
        · exact absurd hval hp
      rw [List.splitOnP_cons, if_neg (by simp [hp2]), ih]
      simp [List.takeWhile_cons, List.dropWhile_cons, hp2]

theorem splitOn_space_eq (s : List Char) :
    s.splitOn ' ' = s.splitOnP (fun x => x == ' ') := rfl

theorem strtok_eq_spaceTokens (s : List Char) :
    strtokSpaces s = spaceTokens s := by
  suffices H : ∀ (n : Nat) (s : List Char), s.length ≤ n →
      strtokSpaces s = spaceTokens s from H s.length s (le_refl _)
  intro n
  induction n with
  | zero =>
    intro s hs
    have : s = [] := by
      cases s with
      | nil => rfl
      | cons c t => simp at hs
    subst this
    simp [strtokSpaces, spaceTokens, List.splitOn_nil]
  | succ n ih =>
    intro s hs
    cases s with
    | nil => simp [strtokSpaces, spaceTokens, List.splitOn_nil]
    | cons c t =>
      by_cases hc : c = ' '
      · subst hc
        rw [strtokSpaces]
        simp only [if_pos rfl]
        rw [ih t (by simpa using hs)]
        rw [spaceTokens, spaceTokens, splitOn_space_eq, splitOn_space_eq,
          List.splitOnP_cons]
        simp
      · rw [strtokSpaces, if_neg hc]
        rw [spaceTokens, splitOn_space_eq, List.splitOnP_cons,
          if_neg (by simp [hc]), splitOnP_structure]
        cases hd : t.dropWhile (fun a => !(a == ' ')) with
        | nil =>
          simp only [hd, List.modifyHead]
          rw [List.filter_cons]
          simp [strtokSpaces]
        | cons d u =>
          have hdne : t.dropWhile (fun a => !(a == ' ')) ≠ [] := by
            rw [hd]; simp
          have hdsp : d = ' ' := by
            have := dropWhile_head_false hd
            simpa using this
          have hulen : u.length ≤ n := by
            have hle := (List.dropWhile_sublist
              (l := t) (fun x => !(x == ' '))).length_le
            rw [hd] at hle
            simp only [List.length_cons] at hle hs
            omega
          subst hdsp
          simp only [hd, List.modifyHead]
          rw [List.filter_cons]
          simp only [List.isEmpty_cons, Bool.not_false, if_true, reduceIte]
          rw [strtokSpaces, if_pos rfl, ih u hulen]
          rw [spaceTokens, splitOn_space_eq]

theorem cstr_eq_self {l : List Char} (h : ∀ c ∈ l, c ≠ nulChar) :
    cstr l = l := by
  induction l with
  | nil => rfl
  | cons c t ih =>
    have hc : c ≠ nulChar := h c (by simp)
    rw [cstr, List.takeWhile_cons, if_pos (by simp [hc])]
    have ht := ih (fun x hx => h x (by simp [hx]))
    rw [cstr] at ht
    rw [ht]

theorem cstr_set (buf : List Char) (k : Nat) :
    cstr (buf.set k nulChar) =
      if k < (cstr buf).length then (cstr buf).take k else cstr buf := by
  induction buf generalizing k with
  | nil => simp [cstr]
  | cons b t ih =>
    by_cases hb : b = nulChar
    · subst hb
      have h0 : cstr (nulChar :: t) = [] := by
        rw [cstr, List.takeWhile_cons]
        simp
      cases k with
      | zero =>
        rw [List.set_cons_zero, h0]
        simp
      | succ k =>
        rw [List.set_cons_succ, h0]
        have h1 : cstr (nulChar :: t.set k nulChar) = [] := by
          rw [cstr, List.takeWhile_cons]
          simp
        rw [h1]
        simp
    · have hcb : cstr (b :: t) = b :: cstr t := by
        rw [cstr, List.takeWhile_cons, if_pos (by simp [hb])]
        rfl
      cases k with
      | zero =>
        rw [List.set_cons_zero, hcb]
        have h1 : cstr (nulChar :: t) = [] := by
          rw [cstr, List.takeWhile_cons]
          simp
        rw [h1]
        simp
      | succ k =>
        rw [List.set_cons_succ, hcb]
        have h2 : cstr (b :: t.set k nulChar) = b :: cstr (t.set k nulChar) := by
          rw [cstr, List.takeWhile_cons, if_pos (by simp [hb])]
          rfl
        rw [h2, ih]
        by_cases hk : k < (cstr t).length
        · rw [if_pos hk, if_pos (by simp; omega)]
          rfl
        · rw [if_neg hk, if_neg (by simp; omega)]

theorem cstr_applyWrites (idxs : List Nat) (buf : List Char) :
    ∃ m, cstr (applyWrites buf idxs) = (cstr buf).take m := by
  induction idxs generalizing buf with
  | nil =>
    exact ⟨(cstr buf).length, by simp [applyWrites]⟩
  | cons k idxs ih =>
    have hstep : applyWrites buf (k :: idxs) =
        applyWrites (buf.set k nulChar) idxs := by
      rw [applyWrites, List.foldl_cons]
      rfl
    rw [hstep]
    obtain ⟨m, hm⟩ := ih (buf.set k nulChar)
    rw [hm, cstr_set]
    by_cases hk : k < (cstr buf).length
    · rw [if_pos hk]
      exact ⟨min m k, by rw [List.take_take]⟩
    · rw [if_neg hk]
      exact ⟨m, rfl⟩

theorem hasSub_of_take {s key : List Char} {m : Nat}
    (h : hasSub (s.take m) key = true) : hasSub s key = true := by
  rw [hasSub, List.any_eq_true] at h
  obtain ⟨i, hi, hb⟩ := h
  rw [List.mem_range, List.length_take] at hi
  have hseg : ((s.take m).drop i).take key.length = key := eq_of_beq hb
  rw [List.drop_take, List.take_take] at hseg
  have hlen := congrArg List.length hseg
  rw [List.length_take, List.length_drop] at hlen
  have hmin : min key.length (m - i) = key.length := by omega
  rw [hmin] at hseg
  rw [hasSub, List.any_eq_true]
  refine ⟨i, ?_, ?_⟩
  · rw [List.mem_range]
    omega
  · exact beq_iff_eq.mpr hseg

/-- Evaluation helper: the `strtok` token list of the one-token value
`a`. -/
theorem strtokSpaces_single : strtokSpaces ("a".toList) = ["a".toList] := by
  rw [show ("a".toList) = ['a'] from rfl]
  rw [strtokSpaces, if_neg (by decide)]
  simp [strtokSpaces]

/-- Evaluation helper: tokenizing the one-token value `a` writes no NUL
delimiters. -/
theorem strtokWriteIdxs_single (o : Nat) :
    strtokWriteIdxs ("a".toList) o = [] := by
  rw [show ("a".toList) = ['a'] from rfl]
  rw [strtokWriteIdxs, if_neg (by decide)]
  simp

/-- Evaluation helper: on `files_extensions "a";` with editor basename
`vim`, the editor branch does not fire. -/
theorem c7cexEditor :
    editorBranch ("vim".toList) (⟨none, [], []⟩ : ConfigState)
        ("files_extensions \"a\";".toList) =
      some (⟨none, [], []⟩, "files_extensions \"a\";".toList) := by
  rw [editorBranch, if_neg (by decide)]

/-- Evaluation helper: on `files_extensions "a";` the `files` branch
fires, routes the token `a` to the specific-file list and NULs the
closing quote (offset 19). -/
theorem c7cexFiles :
    filesBranch (⟨none, [], []⟩ : ConfigState)
        ("files_extensions \"a\";".toList) =
      some (⟨none, ["a".toList], []⟩,
        ("files_extensions \"a\";".toList).set 19 nulChar) := by
  rw [filesBranch, if_pos (by decide)]
  have h2 : captureQuoted ("files_extensions \"a\";".toList) =
      some (18, "a".toList,
        ("files_extensions \"a\";".toList).set 19 nulChar) := by decide
  simp only [h2]
  rw [strtokSpaces_single, strtokWriteIdxs_single]
  simp [applyWrites]

/-- Evaluation helper: after the `files` branch has NULed the closing
quote, the `extensions` branch still sees the substring `extensions`,
finds no closing quote and crashes. -/
theorem c7cexExt :
    extensionsBranch (⟨none, ["a".toList], []⟩ : ConfigState)
        (("files_extensions \"a\";".toList).set 19 nulChar) = none := by
  rw [extensionsBranch, if_pos (by decide)]
  have h : captureQuoted
      (("files_extensions \"a\";".toList).set 19 nulChar) = none := by decide
  simp only [h]

/-- **C7** (counterexample.)  The claim says every config line with a
semicolon, the substring `extensions` and a double-quoted value has the
value's space-separated tokens appended to the extension list.  The line
`files_extensions "a";` is in that scope, but `get_config` runs its
`files` branch first (src/ngp.c:242): that branch consumes the quoted
value, appends the token to the *specific-file* list and overwrites the
closing quote with NUL in the shared buffer; the `extensions` branch
(src/ngp.c:264) then still finds its key in the C string, but
`strchr(start, '"')` returns NULL and `end[0] = 0` dereferences NULL —
the program crashes and nothing is ever appended to the extension
list. -/
theorem c7_cross_branch_cex :
    ("files_extensions \"a\";".toList.contains ';') = true ∧
    hasSub ("files_extensions \"a\";".toList) ("extensions".toList) = true ∧
    quotedValue ("files_extensions \"a\";".toList) = some ("a".toList) ∧
    (filesBranch ⟨none, [], []⟩ ("files_extensions \"a\";".toList)).map
        Prod.fst = some ⟨none, ["a".toList], []⟩ ∧
    processConfigLine ("vim".toList) ⟨none, [], []⟩
        ("files_extensions \"a\";".toList) = none := by
  refine ⟨by decide, by decide, by decide, ?_, ?_⟩
  · rw [c7cexFiles]
    rfl
  · rw [processConfigLine, if_neg (by decide)]
    simp only [c7cexEditor, c7cexFiles, c7cexExt]

/-- **C7** (amended.)  `get_config` runs three substring-keyed branches in
order — editor basename, `files`, `extensions` — on the same line
buffer, and a firing branch overwrites the closing quote (and, via
`strtok_r`, each token-ending space of the value) with NUL in place.
For every NUL-free config line with a semicolon and a double-quoted
value that contains the key of exactly one of the two list branches and
not the editor basename, that branch appends exactly the space-separated
tokens of the quoted value, in order, to its list — `extensions` to the
extension allow-list, `files` to the specific-file list — and the other
lists are untouched.  (On a line where an earlier branch also fires, the
later firing branch instead dereferences NULL; see the
counterexample.) -/
theorem c7_config_tokens_amended (env line : List Char) (st : ConfigState)
    (v : List Char) (hnul : ∀ c ∈ line, c ≠ nulChar)
    (hsemi : line.contains ';' = true)
    (hq : quotedValue line = some v)
    (henv : hasSub line env = false) :
    (hasSub line ("extensions".toList) = true →
      hasSub line ("files".toList) = false →
      processConfigLine env st line =
        some { st with extensions := st.extensions ++ spaceTokens v }) ∧
    (hasSub line ("files".toList) = true →
      hasSub line ("extensions".toList) = false →
      processConfigLine env st line =
        some { st with specifics := st.specifics ++ spaceTokens v }) := by
  have hcstr : cstr line = line := cstr_eq_self hnul
  have hmem : ';' ∈ line := by simpa using hsemi
  rw [quotedValue] at hq
  cases hi : charIdx '"' line with
  | none => simp [hi] at hq
  | some i =>
  simp only [hi] at hq
  cases hj : charIdx '"' (line.drop (i + 1)) with
  | none => simp [hj] at hq
  | some j =>
  simp only [hj, Option.some.injEq] at hq
  have hcap : captureQuoted line =
      some (i + 1, v, line.set (i + 1 + j) nulChar) := by
    simp only [captureQuoted, hcstr, hi, hj, hq]
  have hedit : editorBranch env st line = some (st, line) := by
    rw [editorBranch, hcstr, henv]
    simp
  constructor
  · intro hk hnf
    have hfiles : filesBranch st line = some (st, line) := by
      rw [filesBranch, hcstr, hnf]
      simp
    have hext : extensionsBranch st line =
        some ({ st with extensions := st.extensions ++ strtokSpaces v },
          applyWrites (line.set (i + 1 + j) nulChar)
            (strtokWriteIdxs v (i + 1))) := by
      rw [extensionsBranch, hcstr, hk, hcap]
      simp
    rw [processConfigLine, hcstr, if_neg (by simp [hmem])]
    simp only [hedit, hfiles, hext]
    rw [strtok_eq_spaceTokens]
  · intro hk hnf
    have hfiles : filesBranch st line =
        some ({ st with specifics := st.specifics ++ strtokSpaces v },
          applyWrites (line.set (i + 1 + j) nulChar)
            (strtokWriteIdxs v (i + 1))) := by
      rw [filesBranch, hcstr, hk, hcap]
      simp
    have hnoext : hasSub
        (cstr (applyWrites (line.set (i + 1 + j) nulChar)
          (strtokWriteIdxs v (i + 1)))) ("extensions".toList) = false := by
      obtain ⟨m, hm⟩ := cstr_applyWrites (strtokWriteIdxs v (i + 1))
        (line.set (i + 1 + j) nulChar)
      rw [hm, cstr_set, hcstr]
      by_cases hk2 : i + 1 + j < line.length
      · rw [if_pos hk2, List.take_take]
        cases hval : hasSub (line.take (min m (i + 1 + j)))
            ("extensions".toList) with
        | false => rfl
        | true =>
          have hcon := hasSub_of_take hval
          rw [hcon] at hnf
          exact Bool.noConfusion hnf
      · rw [if_neg hk2]
        cases hval : hasSub (line.take m) ("extensions".toList) with
        | false => rfl
        | true =>
          have hcon := hasSub_of_take hval
          rw [hcon] at hnf
          exact Bool.noConfusion hnf
    have hext : extensionsBranch
        { st with specifics := st.specifics ++ strtokSpaces v }
        (applyWrites (line.set (i + 1 + j) nulChar)
          (strtokWriteIdxs v (i + 1))) =
        some ({ st with specifics := st.specifics ++ strtokSpaces v },
          applyWrites (line.set (i + 1 + j) nulChar)
            (strtokWriteIdxs v (i + 1))) := by
      rw [extensionsBranch, hnoext]
      simp
    rw [processConfigLine, hcstr, if_neg (by simp [hmem])]
    simp only [hedit, hfiles, hext]
    rw [strtok_eq_spaceTokens]

/-- Witness for `c7_config_tokens_amended`: the line `extensions ".c .h";`
(which contains neither `files` nor the editor basename `vim`) appends
exactly `.c` and `.h` to the extension list. -/
theorem c7_config_tokens_amended_witness :
    processConfigLine ("vim".toList) ⟨none, [], []⟩
        ("extensions \".c .h\";".toList) =
      some ⟨none, [], [".c".toList, ".h".toList]⟩ := by
  have h := c7_config_tokens_amended ("vim".toList)
    ("extensions \".c .h\";".toList) ⟨none, [], []⟩ (".c .h".toList)
    (by decide) (by decide) (by decide) (by decide)
  rw [h.1 (by decide) (by decide)]
  decide

/-! ### UI cursor movement (src/ngp.c:755-859) -/

/-- The UI position: `index` (index of the top-of-viewport entry) and
`cursor` (offset of the selection inside the viewport); both are C
`int`s. -/
structure UIState where
  index : Int
  cursor : Int
deriving DecidableEq, Repr

/-- `is_file(index + cursor)` as the movement functions use it.  A negative
argument, or one at or beyond `nbentry`, reads outside the initialized
array in C (undefined); the model answers `false` resp. "not a header"
there, and the invariant below keeps every reachable read in bounds. -/
def isFileAt (es : List Entry) (i : Int) : Bool :=
  if i < 0 then false else isFileIdx es i.toNat

/-- `page_up` (src/ngp.c:755-770): move the viewport one page up; the
cursor goes to the last viewport entry (or 0 at the top), stepping up once
more if that entry is a header and the new viewport is not at index 0. -/
def pageUpS (es : List Entry) (L : Int) (st : UIState) : UIState :=
  let c1 : Int := if st.index = 0 then 0 else L - 1
  let i1 : Int := if st.index - L < 0 then 0 else st.index - L
  let c2 : Int := if isFileAt es (i1 + c1) = true ∧ i1 ≠ 0 then c1 - 1 else c1
  ⟨i1, c2⟩

/-- `max_index` of `page_down` (src/ngp.c:785-788). -/
def maxIndexOf (n L : Int) : Int :=
  if n % L = 0 then n - L else n - n % L

/-- `page_down` (src/ngp.c:778-803). -/
def pageDownS (es : List Entry) (L : Int) (st : UIState) : UIState :=
  let n : Int := es.length
  if n = 0 then st
  else
    let mi : Int := maxIndexOf n L
    let c1 : Int := if st.index = mi then (n - 1) % L else 0
    let i1 : Int := if st.index + L > mi then mi else st.index + L
    let c2 : Int := if isFileAt es (i1 + c1) = true then c1 + 1 else c1
    ⟨i1, c2⟩

/-- `cursor_up` (src/ngp.c:811-831). -/
def cursorUpS (es : List Entry) (L : Int) (st : UIState) : UIState :=
  if st.cursor = 0 then pageUpS es L st
  else
    let c1 : Int := if st.cursor > 0 then st.cursor - 1 else st.cursor
    let c2 : Int := if isFileAt es (st.index + c1) = true then c1 - 1 else c1
    if c2 < 0 then pageUpS es L ⟨st.index, c2⟩ else ⟨st.index, c2⟩

/-- `cursor_down` (src/ngp.c:839-859). -/
def cursorDownS (es : List Entry) (L : Int) (st : UIState) : UIState :=
  if st.cursor = L - 1 then pageDownS es L st
  else
    let n : Int := es.length
    let c1 : Int :=
      if st.cursor + st.index < n - 1 then st.cursor + 1 else st.cursor
    let c2 : Int := if isFileAt es (st.index + c1) = true then c1 + 1 else c1
    if c2 > L - 1 then pageDownS es L ⟨st.index, c2⟩ else ⟨st.index, c2⟩

/-- The four navigation keys of claim C9. -/
inductive Move
  | up
  | down
  | pup
  | pdown
deriving DecidableEq, Repr

def stepUI (es : List Entry) (L : Int) : Move → UIState → UIState
  | .up => cursorUpS es L
  | .down => cursorDownS es L
  | .pup => pageUpS es L
  | .pdown => pageDownS es L

def runUI (es : List Entry) (L : Int) (ms : List Move) (st : UIState) :
    UIState :=
  ms.foldl (fun s m => stepUI es L m s) st

/-- The navigation invariant: the viewport index is a non-negative multiple
of the terminal height `L`, the cursor is inside the viewport, the
selection is in bounds, and the selected entry is a match line unless the
viewport sits at the very top of the store. -/
def InvUI (es : List Entry) (L : Int) (st : UIState) : Prop :=
  0 ≤ st.index ∧ st.index % L = 0 ∧ 0 ≤ st.cursor ∧ st.cursor < L ∧
    st.index + st.cursor < (es.length : Int) ∧
    (isFileAt es (st.index + st.cursor) = false ∨ st.index = 0)

theorem isFileAt_nonneg {es : List Entry} {i : Int} (h : 0 ≤ i) :
    isFileAt es i = isFileIdx es i.toNat := by
  rw [isFileAt, if_neg (by omega)]

theorem WF_next_line {s : List Entry} (hwf : WFStore s) {j : Nat}
    (hj : j < s.length) (hdr : isFileIdx s j = true) :
    j + 1 < s.length ∧ isFileIdx s (j + 1) = false := by
  obtain ⟨i, hji, hilen, hline, hbetween⟩ := hwf.2 j hj hdr
  by_cases hji1 : i = j + 1
  · subst hji1; exact ⟨hilen, hline⟩
  · exact ⟨by omega, hbetween (j + 1) (by omega) (by omega)⟩

theorem WF_prev_line {s : List Entry} (hwf : WFStore s) {j : Nat}
    (hj : j < s.length) (h1 : 1 ≤ j) (hdr : isFileIdx s j = true) :
    isFileIdx s (j - 1) = false := by
  cases hval : isFileIdx s (j - 1)
  · rfl
  · obtain ⟨-, h⟩ := WF_next_line hwf (by omega : j - 1 < s.length) hval
    rw [show j - 1 + 1 = j by omega, hdr] at h
    exact absurd h (by simp)

theorem WF_last_line {s : List Entry} (hwf : WFStore s)
    (hlen : 0 < s.length) : isFileIdx s (s.length - 1) = false := by
  cases hval : isFileIdx s (s.length - 1)
  · rfl
  · obtain ⟨h, -⟩ := WF_next_line hwf (by omega) hval
    omega

theorem WF_next_line_int {es : List Entry} (hwf : WFStore es) {i : Int}
    (h0 : 0 ≤ i) (hdr : isFileAt es i = true) :
    i + 1 < (es.length : Int) ∧ isFileAt es (i + 1) = false := by
  rw [isFileAt_nonneg h0] at hdr
  have hlt : i.toNat < es.length := by
    by_contra hcon
    rw [isFileIdx] at hdr
    rw [List.getD_eq_default] at hdr
    · simp at hdr
    · omega
  obtain ⟨h1, h2⟩ := WF_next_line hwf hlt hdr
  refine ⟨by omega, ?_⟩
  rw [isFileAt_nonneg (by omega), show (i + 1).toNat = i.toNat + 1 by omega]
  exact h2

theorem WF_prev_line_int {es : List Entry} (hwf : WFStore es) {i : Int}
    (h1 : 1 ≤ i) (hlen : i < (es.length : Int)) (hdr : isFileAt es i = true) :
    isFileAt es (i - 1) = false := by
  rw [isFileAt_nonneg (by omega)] at hdr
  have := WF_prev_line hwf (by omega : i.toNat < es.length) (by omega) hdr
  rw [isFileAt_nonneg (by omega), show (i - 1).toNat = i.toNat - 1 by omega]
  exact this

theorem WF_last_line_int {es : List Entry} (hwf : WFStore es)
    (hlen : 1 ≤ (es.length : Int)) :
    isFileAt es ((es.length : Int) - 1) = false := by
  have := WF_last_line hwf (by omega)
  rw [isFileAt_nonneg (by omega),
    show ((es.length : Int) - 1).toNat = es.length - 1 by omega]
  exact this

theorem int_emod_le_self {L x : Int} (hL : 0 < L) (hx : 0 ≤ x) :
    x % L ≤ x := by
  have h1 := Int.ediv_add_emod x L
  have h2 : 0 ≤ x / L := Int.ediv_nonneg hx (by omega)
  have h3 : 0 ≤ L * (x / L) := mul_nonneg (by omega) h2
  omega

theorem maxIndexOf_facts {n L : Int} (hL : 2 ≤ L) (hn : 1 ≤ n) :
    0 ≤ maxIndexOf n L ∧ maxIndexOf n L % L = 0 ∧
      maxIndexOf n L + (n - 1) % L = n - 1 ∧
      0 ≤ (n - 1) % L ∧ (n - 1) % L < L := by
  have hqr := Int.ediv_add_emod n L
  have h0r : 0 ≤ n % L := Int.emod_nonneg n (by omega)
  have hrL : n % L < L := Int.emod_lt_of_pos n (by omega)
  by_cases hr : n % L = 0
  · have hdvd : L ∣ n := Int.dvd_of_emod_eq_zero hr
    have hnL : L ≤ n := Int.le_of_dvd (by omega) hdvd
    have hsub : n - L = L * (n / L - 1) := by
      rw [mul_sub]
      omega
    have hmodsub : (n - L) % L = 0 := by
      rw [hsub]
      exact Int.mul_emod_right L _
    have hmod1 : (n - 1) % L = L - 1 := by
      have hrw : n - 1 = L - 1 + L * (n / L - 1) := by
        rw [mul_sub]
        omega
      rw [hrw, Int.add_mul_emod_self_left, Int.emod_eq_of_lt (by omega) (by omega)]
    rw [maxIndexOf, if_pos hr]
    refine ⟨by omega, hmodsub, by omega, by omega, by omega⟩
  · have hr1 : 1 ≤ n % L := by omega
    have hsub : n - n % L = L * (n / L) := by omega
    have hq0 : 0 ≤ n / L := Int.ediv_nonneg (by omega) (by omega)
    have hprod : 0 ≤ L * (n / L) := mul_nonneg (by omega) hq0
    have hmodsub : (n - n % L) % L = 0 := by
      rw [hsub]
      exact Int.mul_emod_right L _
    have hmod1 : (n - 1) % L = n % L - 1 := by
      have hrw : n - 1 = n % L - 1 + L * (n / L) := by omega
      rw [hrw, Int.add_mul_emod_self_left,
        Int.emod_eq_of_lt (by omega) (by omega)]
    rw [maxIndexOf, if_neg hr]
    refine ⟨by omega, hmodsub, by omega, by omega, by omega⟩

theorem le_maxIndexOf {n L idx : Int} (hL : 2 ≤ L) (hn : 1 ≤ n)
    (h0 : 0 ≤ idx) (hm : idx % L = 0) (hle : idx ≤ n - 1) :
    idx ≤ maxIndexOf n L := by
  obtain ⟨hmi0, hmim, hmie, hm0, hm1⟩ := maxIndexOf_facts hL hn
  have hd : (n - 1 - idx) % L = (n - 1) % L := by
    rw [Int.sub_emod, hm, sub_zero, Int.emod_emod_of_dvd _ dvd_rfl]
  have hd0 : 0 ≤ n - 1 - idx := by omega
  have := int_emod_le_self (L := L) (x := n - 1 - idx) (by omega) hd0
  omega

/-- Two non-negative multiples of `L` that are ordered strictly differ by
at least `L`. -/
theorem mult_gap {L a b : Int} (hL : 0 < L) (ha : a % L = 0)
    (hb : b % L = 0) (hab : a < b) : a + L ≤ b := by
  have hdvd : L ∣ b - a := by
    have h1 : (b - a) % L = 0 := by
      rw [Int.sub_emod, ha, hb]
      simp
    exact Int.dvd_of_emod_eq_zero h1
  have := Int.le_of_dvd (by omega) hdvd
  omega

theorem emod_sub_self {a L : Int} : (a - L) % L = a % L := by
  rw [Int.sub_emod, Int.emod_self, sub_zero, Int.emod_emod_of_dvd _ dvd_rfl]

theorem emod_add_self {a L : Int} : (a + L) % L = a % L := by
  rw [Int.add_emod, Int.emod_self, add_zero, Int.emod_emod_of_dvd _ dvd_rfl]

theorem bool_not_true {b : Bool} (h : ¬b = true) : b = false := by
  cases hval : b
  · rfl
  · exact absurd hval h

theorem pageUpS_inv {es : List Entry} {L : Int} {st : UIState}
    (hwf : WFStore es) (hL : 2 ≤ L) (hn : 1 ≤ (es.length : Int))
    (hi0 : 0 ≤ st.index) (him : st.index % L = 0)
    (hilt : st.index < (es.length : Int)) :
    InvUI es L (pageUpS es L st) := by
  simp only [pageUpS]
  by_cases hz : st.index = 0
  · rw [if_pos hz, if_pos (by omega), if_neg (by simp)]
    unfold InvUI
    dsimp only
    exact ⟨by omega, by simp, by omega, by omega, by omega, Or.inr rfl⟩
  · have hgeL : L ≤ st.index := by
      have := mult_gap (a := 0) (b := st.index) (by omega) (by simp) him
        (by omega)
      omega
    rw [if_neg hz, if_neg (by omega)]
    by_cases hc : isFileAt es (st.index - L + (L - 1)) = true ∧
        st.index - L ≠ 0
    · rw [if_pos hc]
      unfold InvUI
      dsimp only
      have hfix : isFileAt es (st.index - 1) = true := by
        have := hc.1
        rwa [show st.index - L + (L - 1) = st.index - 1 by ring] at this
      have hprev : isFileAt es (st.index - 1 - 1) = false :=
        WF_prev_line_int hwf (by omega) (by omega) hfix
      refine ⟨by omega, by rw [emod_sub_self]; exact him, by omega, by omega,
        by omega, Or.inl ?_⟩
      rwa [show st.index - L + (L - 1 - 1) = st.index - 1 - 1 by ring]
    · rw [if_neg hc]
      unfold InvUI
      dsimp only
      refine ⟨by omega, by rw [emod_sub_self]; exact him, by omega, by omega,
        by omega, ?_⟩
      rcases not_and_or.mp hc with hc | hc
      · exact Or.inl (by rw [show st.index - L + (L - 1) =
          st.index - 1 by ring] at hc ⊢; exact bool_not_true hc)
      · exact Or.inr (by omega)

theorem pageDownS_inv {es : List Entry} {L : Int} {st : UIState}
    (hwf : WFStore es) (hL : 2 ≤ L) (hn : 1 ≤ (es.length : Int))
    (hi0 : 0 ≤ st.index) (him : st.index % L = 0)
    (hilt : st.index < (es.length : Int)) :
    InvUI es L (pageDownS es L st) := by
  obtain ⟨hmi0, hmim, hmie, hm0, hm1⟩ :=
    maxIndexOf_facts (n := (es.length : Int)) hL hn
  have hlast := WF_last_line_int hwf hn
  simp only [pageDownS]
  rw [if_neg (by omega : ¬((es.length : Int) = 0))]
  by_cases hmi : st.index = maxIndexOf (es.length : Int) L
  · rw [if_pos hmi, if_pos (by omega), if_neg ?hc]
    case hc =>
      rw [show maxIndexOf (es.length : Int) L + ((es.length : Int) - 1) % L =
        (es.length : Int) - 1 by omega, hlast]
      simp
    unfold InvUI
    dsimp only
    refine ⟨by omega, hmim, by omega, by omega, by omega, Or.inl ?_⟩
    rw [show maxIndexOf (es.length : Int) L + ((es.length : Int) - 1) % L =
      (es.length : Int) - 1 by omega]
    exact hlast
  · have hle : st.index ≤ maxIndexOf (es.length : Int) L :=
      le_maxIndexOf hL hn hi0 him (by omega)
    have hgap : st.index + L ≤ maxIndexOf (es.length : Int) L :=
      mult_gap (by omega) him hmim (by omega)
    rw [if_neg hmi, if_neg (by omega)]
    by_cases hf : isFileAt es (st.index + L + 0) = true
    · rw [if_pos hf]
      obtain ⟨hn1, hn2⟩ := WF_next_line_int hwf (by omega) hf
      unfold InvUI
      dsimp only
      refine ⟨by omega, by rw [emod_add_self]; exact him, by omega, by omega,
        by omega, Or.inl ?_⟩
      rwa [show st.index + L + (0 + 1) = st.index + L + 0 + 1 by ring]
    · rw [if_neg hf]
      unfold InvUI
      dsimp only
      exact ⟨by omega, by rw [emod_add_self]; exact him, by omega, by omega,
        by omega, Or.inl (bool_not_true hf)⟩

theorem cursorUpS_inv {es : List Entry} {L : Int} {st : UIState}
    (hwf : WFStore es) (hL : 2 ≤ L) (hinv : InvUI es L st) :
    InvUI es L (cursorUpS es L st) := by
  obtain ⟨h1, h2, h3, h4, h5, h6⟩ := hinv
  have hn : 1 ≤ (es.length : Int) := by omega
  simp only [cursorUpS]
  by_cases hc0 : st.cursor = 0
  · rw [if_pos hc0]
    exact pageUpS_inv hwf hL hn h1 h2 (by omega)
  · rw [if_neg hc0, if_pos (by omega : st.cursor > 0)]
    by_cases hf : isFileAt es (st.index + (st.cursor - 1)) = true
    · rw [if_pos hf]
      by_cases hneg : st.cursor - 1 - 1 < 0
      · rw [if_pos hneg]
        exact pageUpS_inv hwf hL hn h1 h2 (by dsimp only; omega)
      · rw [if_neg hneg]
        unfold InvUI
        dsimp only
        have hprev : isFileAt es (st.index + (st.cursor - 1) - 1) = false :=
          WF_prev_line_int hwf (by omega) (by omega) hf
        refine ⟨h1, h2, by omega, by omega, by omega, Or.inl ?_⟩
        rwa [show st.index + (st.cursor - 1 - 1) =
          st.index + (st.cursor - 1) - 1 by ring]
    · rw [if_neg hf, if_neg (by omega : ¬(st.cursor - 1 < 0))]
      unfold InvUI
      dsimp only
      exact ⟨h1, h2, by omega, by omega, by omega,
        Or.inl (bool_not_true hf)⟩

theorem cursorDownS_inv {es : List Entry} {L : Int} {st : UIState}
    (hwf : WFStore es) (hL : 2 ≤ L) (hinv : InvUI es L st) :
    InvUI es L (cursorDownS es L st) := by
  obtain ⟨h1, h2, h3, h4, h5, h6⟩ := hinv
  have hn : 1 ≤ (es.length : Int) := by omega
  have hlast := WF_last_line_int hwf hn
  simp only [cursorDownS]
  by_cases hcL : st.cursor = L - 1
  · rw [if_pos hcL]
    exact pageDownS_inv hwf hL hn h1 h2 (by omega)
  · rw [if_neg hcL]
    by_cases hg : st.cursor + st.index < (es.length : Int) - 1
    · rw [if_pos hg]
      by_cases hf : isFileAt es (st.index + (st.cursor + 1)) = true
      · rw [if_pos hf]
        obtain ⟨hn1, hn2⟩ := WF_next_line_int hwf (by omega) hf
        by_cases hbig : st.cursor + 1 + 1 > L - 1
        · rw [if_pos hbig]
          exact pageDownS_inv hwf hL hn h1 h2 (by dsimp only; omega)
        · rw [if_neg hbig]
          unfold InvUI
          dsimp only
          refine ⟨h1, h2, by omega, by omega, by omega, Or.inl ?_⟩
          rwa [show st.index + (st.cursor + 1 + 1) =
            st.index + (st.cursor + 1) + 1 by ring]
      · rw [if_neg hf, if_neg (by omega : ¬(st.cursor + 1 > L - 1))]
        unfold InvUI
        dsimp only
        exact ⟨h1, h2, by omega, by omega, by omega,
          Or.inl (bool_not_true hf)⟩
    · rw [if_neg hg]
      have hsel : st.index + st.cursor = (es.length : Int) - 1 := by omega
      have hff : isFileAt es (st.index + st.cursor) = false := by
        rw [hsel]
        exact hlast
      rw [if_neg (by rw [hff]; simp :
        ¬(isFileAt es (st.index + st.cursor) = true))]
      rw [if_neg (by omega : ¬(st.cursor > L - 1))]
      unfold InvUI
      dsimp only
      exact ⟨h1, h2, h3, h4, h5, Or.inl hff⟩

theorem stepUI_inv {es : List Entry} {L : Int} {st : UIState}
    (hwf : WFStore es) (hL : 2 ≤ L) (hinv : InvUI es L st) (m : Move) :
    InvUI es L (stepUI es L m st) := by
  obtain ⟨h1, h2, h3, h4, h5, h6⟩ := hinv
  have hn : 1 ≤ (es.length : Int) := by omega
  cases m with
  | up => exact cursorUpS_inv hwf hL ⟨h1, h2, h3, h4, h5, h6⟩
  | down => exact cursorDownS_inv hwf hL ⟨h1, h2, h3, h4, h5, h6⟩
  | pup => exact pageUpS_inv hwf hL hn h1 h2 (by omega)
  | pdown => exact pageDownS_inv hwf hL hn h1 h2 (by omega)

/-- **C9** (counterexample.)  The claim says that after any sequence of
navigation inputs the selection is never on a header.  From the legitimate
state index 0, cursor 1 (selection on the only match line) of a two-entry
well-formed store, pressing Up runs `cursor_up` into `page_up`, which at
`*index == 0` parks the cursor at 0: the selection lands on the file
header at entry 0. -/
theorem c9_lands_on_header_cex :
    isFileAt [(⟨true, [102], 0⟩ : Entry), ⟨false, [98], 3⟩] ((0 : Int) + 1) =
      false ∧
    InvUI [(⟨true, [102], 0⟩ : Entry), ⟨false, [98], 3⟩] 4 ⟨0, 1⟩ ∧
    (let st := cursorUpS [(⟨true, [102], 0⟩ : Entry), ⟨false, [98], 3⟩] 4
      ⟨0, 1⟩
     isFileAt [(⟨true, [102], 0⟩ : Entry), ⟨false, [98], 3⟩]
      (st.index + st.cursor) = true) := by
  refine ⟨by decide, ?_, by decide⟩
  unfold InvUI
  refine ⟨by decide, by decide, by decide, by decide, by decide, by decide⟩

/-- **C9** (amended.)  For every well-formed store with at least one match
line, every terminal height of at least 2, and every starting state
satisfying the viewport invariant (index a non-negative multiple of the
height, cursor inside the viewport, selection in bounds, and the selection
on a match line unless the viewport is at the top), any sequence of
Up/Down/PageUp/PageDown inputs preserves the invariant; in particular,
whenever the viewport is not at the very top of the store, the selected
entry is a match line, never a file header.  (At the top of the store the
selection can rest on the leading header — see the counterexample.) -/
theorem c9_navigation_amended (es : List Entry) (L : Int) (st : UIState)
    (ms : List Move) (hwf : WFStore es) (hL : 2 ≤ L)
    (hinv : InvUI es L st) :
    InvUI es L (runUI es L ms st) ∧
    ((runUI es L ms st).index ≠ 0 →
      isFileAt es
        ((runUI es L ms st).index + (runUI es L ms st).cursor) = false) := by
  have hall : ∀ (l : List Move) (s : UIState), InvUI es L s →
      InvUI es L (runUI es L l s) := by
    intro l
    induction l with
    | nil => intro s h; exact h
    | cons m l ih =>
      intro s h
      rw [runUI, List.foldl_cons]
      exact ih _ (stepUI_inv hwf hL h m)
  have hrun : InvUI es L (runUI es L ms st) := hall ms st hinv
  refine ⟨hrun, ?_⟩
  intro hne
  rcases hrun.2.2.2.2.2 with h | h
  · exact h
  · exact absurd h hne

/-- Witness for `c9_navigation_amended`: one Down keypress on a concrete
two-entry store. -/
theorem c9_navigation_amended_witness :
    InvUI [(⟨true, [102], 0⟩ : Entry), ⟨false, [98], 3⟩] 2
      (runUI [(⟨true, [102], 0⟩ : Entry), ⟨false, [98], 3⟩] 2 [Move.down]
        ⟨0, 1⟩) :=
  (c9_navigation_amended [(⟨true, [102], 0⟩ : Entry), ⟨false, [98], 3⟩] 2
    ⟨0, 1⟩ [Move.down] wf_concrete_example (by omega)
    (by unfold InvUI; exact ⟨by decide, by decide, by decide, by decide,
      by decide, by decide⟩)).1

/-! ### Case-sensitive literal matcher: `pre_bmh` / `bmh` / `strstr`
(src/ngp.c:1102-1150, 947-952, 1843-1853).  Bytes are C `char`s, i.e.
signed values in [-128, 127]. -/

/-- Reading `text[k]`: the line bytes, then the NUL terminator the worker
wrote over the newline at position `text.length`.  Reads beyond that are
reads of adjacent memory in C; the model returns 0 there, which can only
shorten the overshoot of the "unicode" skip past the window bound, never
change the returned result. -/
def txtAt (text : List Int) (k : Nat) : Int := text.getD k 0

def patAt (pat : List Int) (k : Nat) : Int := pat.getD k 0

/-- The greatest index `i < k` with `pat[i] = c` (in the `pre_bmh` fill
loop the last write wins). -/
def lastIdxBelow (pat : List Int) : Nat → Int → Option Nat
  | 0, _ => none
  | k + 1, c => if patAt pat k = c then some k else lastIdxBelow pat k c

/-- The skip table built by `pre_bmh` (src/ngp.c:1114-1124):
`skipt[c] = psize` by default, overwritten with `psize - i - 1` for each
`i < psize - 1` in increasing order. -/
def skiptOf (pat : List Int) (psize : Nat) (c : Int) : Nat :=
  match lastIdxBelow pat (psize - 1) c with
  | some j => psize - j - 1
  | none => psize

/-- The parser `main` plus `pre_bmh` install for a case-sensitive literal
search (src/ngp.c:1843-1853, 1104-1128). -/
inductive ParserChoice
  | strstrC  -- psize == 1: strstr_wrapper (src/ngp.c:1110-1112)
  | rkC      -- high-bit byte among pattern[0..psize-2]: rabin_karp (src/ngp.c:1117-1122)
  | bmhC     -- otherwise: bmh stays installed (src/ngp.c:1847-1848)
deriving DecidableEq, Repr

def preBmhChoice (pat : List Int) : ParserChoice :=
  if pat.length = 1 then .strstrC
  else if (List.range (pat.length - 1)).any (fun i => patAt pat i < 0) then
    .rkC
  else .bmhC

/-- The "unicode" advance of `bmh` (src/ngp.c:1144-1146):
`while (text[i + psize - 1] < 0) i += psize;`, with fuel.  Fuel
`text.length + 1` always suffices, because each step advances `i` by
`psize ≥ 1` and reads at or past the terminator yield 0. -/
def uniSkip (text : List Int) (psize : Nat) : Nat → Nat → Nat
  | 0, i => i
  | fuel + 1, i =>
    if txtAt text (i + psize - 1) < 0 then uniSkip text psize fuel (i + psize)
    else i

/-- The `bmh` scan loop (src/ngp.c:1130-1150), with explicit fuel for the
C `while`: `none` means the loop has not returned within `fuel`
iterations (for an anchor byte equal to 0 the C loop never advances `i`
and spins forever); `some (some i)` is a returned match position,
`some none` the NULL return.  Each iteration checks last byte, first
byte, then `memcmp` of the middle `psize - 2` bytes, and otherwise
advances by the skip table (positive anchor) or by the unicode loop. -/
def bmhGo (text pat : List Int) (psize tsize : Nat) :
    Nat → Nat → Option (Option Nat)
  | 0, _ => none
  | fuel + 1, i =>
    if i + psize ≤ tsize then
      if txtAt text (i + psize - 1) = patAt pat (psize - 1) ∧
          txtAt text i = patAt pat 0 ∧
          ((List.range (psize - 2)).all
            fun k => txtAt text (i + 1 + k) == patAt pat (1 + k)) = true then
        some (some i)
      else
        if 0 < txtAt text (i + psize - 1) then
          bmhGo text pat psize tsize fuel
            (i + skiptOf pat psize (txtAt text (i + psize - 1)))
        else
          bmhGo text pat psize tsize fuel
            (uniSkip text psize (text.length + 1) i)
    else some none

/-- `bmh(text, pattern, tsize)` with fuel `tsize + 2`: the correctness
proof shows this fuel suffices whenever the line is NUL-free, because
every iteration then advances `i` by at least one. -/
def bmhRun (text pat : List Int) : Option (Option Nat) :=
  bmhGo text pat pat.length text.length (text.length + 2) 0

/-- The pattern matches the line at start position `s`. -/
def matchesAt (text pat : List Int) (s : Nat) : Bool :=
  decide (s + pat.length ≤ text.length) &&
    ((List.range pat.length).all fun k => txtAt text (s + k) == patAt pat k)

/-- The pattern occurs somewhere in the line as a contiguous substring. -/
def occursB (text pat : List Int) : Bool :=
  (List.range (text.length + 1)).any (matchesAt text pat)

/-- `strstr(line, pattern)` (src/ngp.c:947-952): the first position at
which the pattern occurs in the NUL-terminated line. -/
def strstrFind (text pat : List Int) : Option Nat :=
  (List.range (text.length + 1)).find? (matchesAt text pat)

/-- 32-bit two's-complement wrap-around for the Rabin–Karp `int`
arithmetic. -/
def wrap32 (x : Int) : Int := (x + 2 ^ 31) % 2 ^ 32 - 2 ^ 31

/-- `pre_rabin_karp`'s shift `d = 1 << (psize - 1)` (src/ngp.c:1014),
modelled as `psize - 1` wrapping doublings. -/
def rkShiftD (psize : Nat) : Int :=
  Nat.rec 1 (fun _ h => wrap32 (2 * h)) (psize - 1)

/-- The rolling hash `h := (h << 1) + byte` over a byte list
(src/ngp.c:1017-1018 and 1037-1038), with 32-bit wrap-around. -/
def rkHash (l : List Int) : Int :=
  l.foldl (fun h b => wrap32 (wrap32 (2 * h) + b)) 0

/-- `rabin_karp` (src/ngp.c:1031-1049): compare rolling hashes, confirm a
hash hit with `memcmp`, otherwise advance one position using `REHASH`
(src/ngp.c:999). -/
def rkGo (text pat : List Int) (psize tsize : Nat) (d : Int) (hp : Int)
    (i : Nat) (ht : Int) : Option Nat :=
  if i + psize ≤ tsize then
    if ht = hp ∧ ((List.range psize).all
        fun k => txtAt text (i + k) == patAt pat k) = true then some i
    else
      rkGo text pat psize tsize d hp (i + 1)
        (wrap32 (wrap32 ((ht - txtAt text i * d) * 2) + txtAt text (i + psize)))
  else none
termination_by tsize + 1 - i

def rkRun (text pat : List Int) : Option Nat :=
  rkGo text pat pat.length text.length (rkShiftD pat.length)
    (rkHash (pat.take pat.length)) 0 (rkHash (text.take pat.length))

/-- The behaviour of the installed case-sensitive parser on one line:
`none` = the call does not return (the `bmh` loop spins), `some r` = the
call returns, with `r` the match (`none` for NULL). -/
def parserResult (text pat : List Int) : Option (Option Nat) :=
  match preBmhChoice pat with
  | .strstrC => some (strstrFind text pat)
  | .rkC => some (rkRun text pat)
  | .bmhC => bmhRun text pat

theorem patAt_pos {pat : List Int} (hclean : ∀ b ∈ pat, 0 < b ∧ b < 128)
    {k : Nat} (hk : k < pat.length) : 0 < patAt pat k := by
  exact (hclean _ (getD_mem_of_lt pat 0 k hk)).1

theorem txtAt_ne_zero {text : List Int} (hz : ∀ b ∈ text, b ≠ 0) {k : Nat}
    (hk : k < text.length) : txtAt text k ≠ 0 := by
  exact hz _ (getD_mem_of_lt text 0 k hk)

theorem matchesAt_iff {text pat : List Int} {s : Nat} :
    matchesAt text pat s = true ↔
      s + pat.length ≤ text.length ∧
        ∀ k, k < pat.length → txtAt text (s + k) = patAt pat k := by
  rw [matchesAt, Bool.and_eq_true, decide_eq_true_eq, List.all_eq_true]
  constructor
  · intro ⟨h1, h2⟩
    exact ⟨h1, fun k hk => by simpa using h2 k (List.mem_range.mpr hk)⟩
  · intro ⟨h1, h2⟩
    exact ⟨h1, fun k hk => by simpa using h2 k (List.mem_range.mp hk)⟩

theorem occursB_iff {text pat : List Int} :
    occursB text pat = true ↔ ∃ s, matchesAt text pat s = true := by
  rw [occursB, List.any_eq_true]
  constructor
  · rintro ⟨s, -, hm⟩
    exact ⟨s, hm⟩
  · rintro ⟨s, hm⟩
    refine ⟨s, List.mem_range.mpr ?_, hm⟩
    have := (matchesAt_iff.mp hm).1
    omega

theorem strstrFind_isSome {text pat : List Int} :
    (strstrFind text pat).isSome = occursB text pat := by
  rw [strstrFind, occursB]
  cases hfind : (List.range (text.length + 1)).find? (matchesAt text pat) with
  | none =>
    have := List.find?_eq_none.mp hfind
    cases hany : (List.range (text.length + 1)).any (matchesAt text pat)
    · rfl
    · obtain ⟨s, hs, hm⟩ := List.any_eq_true.mp hany
      exact absurd hm (by simpa using this s hs)
  | some s =>
    have := List.find?_some hfind
    have hmem : s ∈ List.range (text.length + 1) :=
      List.mem_of_find?_eq_some hfind
    simp only [Option.isSome_some]
    exact (List.any_eq_true.mpr ⟨s, hmem, this⟩).symm

theorem lastIdxBelow_some {pat : List Int} {c : Int} :
    ∀ {k j : Nat}, lastIdxBelow pat k c = some j →
      j < k ∧ patAt pat j = c ∧ ∀ m, j < m → m < k → patAt pat m ≠ c := by
  intro k
  induction k with
  | zero => intro j h; simp [lastIdxBelow] at h
  | succ k ih =>
    intro j h
    rw [lastIdxBelow] at h
    by_cases hc : patAt pat k = c
    · rw [if_pos hc] at h
      injection h with h
      subst h
      exact ⟨by omega, hc, fun m hm1 hm2 => by omega⟩
    · rw [if_neg hc] at h
      obtain ⟨h1, h2, h3⟩ := ih h
      refine ⟨by omega, h2, fun m hm1 hm2 => ?_⟩
      by_cases hmk : m = k
      · subst hmk; exact hc
      · exact h3 m hm1 (by omega)

theorem lastIdxBelow_none {pat : List Int} {c : Int} :
    ∀ {k : Nat}, lastIdxBelow pat k c = none →
      ∀ m, m < k → patAt pat m ≠ c := by
  intro k
  induction k with
  | zero => intro h m hm; omega
  | succ k ih =>
    intro h m hm
    rw [lastIdxBelow] at h
    by_cases hc : patAt pat k = c
    · rw [if_pos hc] at h; exact absurd h (by simp)
    · rw [if_neg hc] at h
      by_cases hmk : m = k
      · subst hmk; exact hc
      · exact ih h m (by omega)

theorem skiptOf_pos {pat : List Int} {psize : Nat} (hp : 1 ≤ psize)
    (c : Int) : 1 ≤ skiptOf pat psize c := by
  rw [skiptOf]
  split
  · rename_i j hl
    have := (lastIdxBelow_some hl).1
    omega
  · omega

theorem skiptOf_le {pat : List Int} {psize : Nat} (c : Int) :
    skiptOf pat psize c ≤ psize := by
  rw [skiptOf]
  split
  · omega
  · omega

/-- Skip safety: when the anchor byte is positive, no occurrence of the
pattern starts strictly inside the skipped range. -/
theorem skip_safe {text pat : List Int} {i s : Nat}
    (hm : matchesAt text pat s = true) (h1 : i < s)
    (h2 : s < i + skiptOf pat pat.length (txtAt text (i + pat.length - 1))) :
    False := by
  obtain ⟨hb, hpt⟩ := matchesAt_iff.mp hm
  have hskle : skiptOf pat pat.length (txtAt text (i + pat.length - 1)) ≤
      pat.length := skiptOf_le _
  have hplen : 1 ≤ pat.length := by omega
  have hk : i + pat.length - 1 - s < pat.length := by omega
  have heq : patAt pat (i + pat.length - 1 - s) =
      txtAt text (i + pat.length - 1) := by
    have := hpt (i + pat.length - 1 - s) hk
    rw [show s + (i + pat.length - 1 - s) = i + pat.length - 1 by omega]
      at this
    exact this.symm
  rw [skiptOf] at h2
  split at h2
  · rename_i j hl
    obtain ⟨hj1, hj2, hj3⟩ := lastIdxBelow_some hl
    exact hj3 (i + pat.length - 1 - s) (by omega) (by omega) heq
  · rename_i hl
    exact lastIdxBelow_none hl (i + pat.length - 1 - s) (by omega) heq

theorem uniSkip_ge (text : List Int) (psize : Nat) :
    ∀ fuel i, i ≤ uniSkip text psize fuel i := by
  intro fuel
  induction fuel with
  | zero => intro i; rw [uniSkip]
  | succ fuel ih =>
    intro i
    rw [uniSkip]
    by_cases hc : txtAt text (i + psize - 1) < 0
    · rw [if_pos hc]
      have := ih (i + psize)
      omega
    · rw [if_neg hc]

/-- The unicode advance never jumps past an occurrence of a pattern whose
bytes are all positive. -/
theorem uniSkip_le_occ {text pat : List Int} {s : Nat} (hp1 : 1 ≤ pat.length)
    (hclean : ∀ b ∈ pat, 0 < b ∧ b < 128)
    (hm : matchesAt text pat s = true) :
    ∀ fuel i, i ≤ s → uniSkip text pat.length fuel i ≤ s := by
  obtain ⟨hb, hpt⟩ := matchesAt_iff.mp hm
  intro fuel
  induction fuel with
  | zero => intro i hi; rw [uniSkip]; exact hi
  | succ fuel ih =>
    intro i hi
    rw [uniSkip]
    by_cases hc : txtAt text (i + pat.length - 1) < 0
    · rw [if_pos hc]
      refine ih (i + pat.length) ?_
      by_contra hcon
      have hk : i + pat.length - 1 - s < pat.length := by omega
      have heq := hpt (i + pat.length - 1 - s) hk
      rw [show s + (i + pat.length - 1 - s) = i + pat.length - 1 by omega]
        at heq
      have hpos := patAt_pos hclean hk
      omega
    · rw [if_neg hc]; exact hi

/-- Entered with a negative anchor byte, the unicode advance moves forward
by at least `psize`. -/
theorem uniSkip_progress {text : List Int} {psize i : Nat}
    (hc : txtAt text (i + psize - 1) < 0) :
    i + psize ≤ uniSkip text psize (text.length + 1) i := by
  rw [show text.length + 1 = text.length + 1 from rfl, uniSkip, if_pos hc]
  exact uniSkip_ge text psize text.length (i + psize)

/-- The three-part comparison of one `bmh` iteration is exactly a full
window match. -/
theorem bmh_check_iff {text pat : List Int} {i : Nat} (hp2 : 2 ≤ pat.length)
    (hb : i + pat.length ≤ text.length) :
    (txtAt text (i + pat.length - 1) = patAt pat (pat.length - 1) ∧
      txtAt text i = patAt pat 0 ∧
      ((List.range (pat.length - 2)).all
        fun k => txtAt text (i + 1 + k) == patAt pat (1 + k)) = true) ↔
      matchesAt text pat i = true := by
  rw [matchesAt_iff, List.all_eq_true]
  constructor
  · intro ⟨hl, h0, hmid⟩
    refine ⟨hb, fun k hk => ?_⟩
    by_cases hk0 : k = 0
    · subst hk0; simpa using h0
    · by_cases hkl : k = pat.length - 1
      · subst hkl
        rwa [show i + (pat.length - 1) = i + pat.length - 1 by omega]
      · have hmem : k - 1 ∈ List.range (pat.length - 2) :=
          List.mem_range.mpr (by omega)
        have := hmid (k - 1) hmem
        rw [beq_iff_eq] at this
        rwa [show i + 1 + (k - 1) = i + k by omega,
          show 1 + (k - 1) = k by omega] at this
  · rintro ⟨-, hpt⟩
    refine ⟨?_, ?_, ?_⟩
    · have := hpt (pat.length - 1) (by omega)
      rwa [show i + (pat.length - 1) = i + pat.length - 1 by omega] at this
    · simpa using hpt 0 (by omega)
    · intro k hk
      have hkr := List.mem_range.mp hk
      rw [beq_iff_eq]
      have := hpt (1 + k) (by omega)
      rwa [show i + (1 + k) = i + 1 + k by omega] at this

/-- Completeness of the `bmh` scan: with enough fuel, a NUL-free line
containing an occurrence makes the loop return a match. -/
theorem bmh_complete {text pat : List Int} {s0 : Nat} (hp2 : 2 ≤ pat.length)
    (hclean : ∀ b ∈ pat, 0 < b ∧ b < 128) (hz : ∀ b ∈ text, b ≠ 0)
    (hs0 : matchesAt text pat s0 = true) :
    ∀ fuel i, i ≤ s0 → s0 + 1 ≤ i + fuel →
      ∃ r, bmhGo text pat pat.length text.length fuel i = some (some r) := by
  have hbound := (matchesAt_iff.mp hs0).1
  intro fuel
  induction fuel with
  | zero => intro i hi hf; omega
  | succ fuel ih =>
    intro i hi hf
    rw [bmhGo]
    rw [if_pos (by omega : i + pat.length ≤ text.length)]
    by_cases hchk : txtAt text (i + pat.length - 1) = patAt pat (pat.length - 1) ∧
        txtAt text i = patAt pat 0 ∧
        ((List.range (pat.length - 2)).all
          fun k => txtAt text (i + 1 + k) == patAt pat (1 + k)) = true
    · rw [if_pos hchk]
      exact ⟨i, rfl⟩
    · rw [if_neg hchk]
      have hne : i ≠ s0 := by
        intro hcon
        subst hcon
        exact hchk ((bmh_check_iff hp2 (by omega)).mpr hs0)
      have hlt : i < s0 := by omega
      have hanz : txtAt text (i + pat.length - 1) ≠ 0 :=
        txtAt_ne_zero hz (by omega)
      by_cases ha : 0 < txtAt text (i + pat.length - 1)
      · rw [if_pos ha]
        have hsk1 := @skiptOf_pos pat pat.length (by omega)
          (txtAt text (i + pat.length - 1))
        have hle : i + skiptOf pat pat.length (txtAt text (i + pat.length - 1))
            ≤ s0 := by
          by_contra hcon
          exact skip_safe hs0 hlt (by omega)
        exact ih _ hle (by omega)
      · rw [if_neg ha]
        have hneg : txtAt text (i + pat.length - 1) < 0 := by omega
        have hge := @uniSkip_progress text pat.length i hneg
        have hle := uniSkip_le_occ (by omega) hclean hs0 (text.length + 1) i
          (by omega)
        exact ih _ hle (by omega)

/-- Termination of the `bmh` scan without a match: on a NUL-free line with
no occurrence, the loop returns NULL within the given fuel. -/
theorem bmh_no_match {text pat : List Int} (hp2 : 2 ≤ pat.length)
    (hclean : ∀ b ∈ pat, 0 < b ∧ b < 128) (hz : ∀ b ∈ text, b ≠ 0)
    (hnone : ∀ s, matchesAt text pat s = false) :
    ∀ fuel i, 1 ≤ fuel → text.length + 2 ≤ i + fuel →
      bmhGo text pat pat.length text.length fuel i = some none := by
  intro fuel
  induction fuel with
  | zero => intro i h1 h2; omega
  | succ fuel ih =>
    intro i h1 h2
    rw [bmhGo]
    by_cases hin : i + pat.length ≤ text.length
    · rw [if_pos hin]
      have hchk : ¬(txtAt text (i + pat.length - 1) = patAt pat (pat.length - 1) ∧
          txtAt text i = patAt pat 0 ∧
          ((List.range (pat.length - 2)).all
            fun k => txtAt text (i + 1 + k) == patAt pat (1 + k)) = true) := by
        intro hcon
        have := (bmh_check_iff hp2 hin).mp hcon
        rw [hnone i] at this
        exact absurd this (by simp)
      rw [if_neg hchk]
      have hanz : txtAt text (i + pat.length - 1) ≠ 0 :=
        txtAt_ne_zero hz (by omega)
      by_cases ha : 0 < txtAt text (i + pat.length - 1)
      · rw [if_pos ha]
        have hsk1 := @skiptOf_pos pat pat.length (by omega)
          (txtAt text (i + pat.length - 1))
        exact ih _ (by omega) (by omega)
      · rw [if_neg ha]
        have hneg : txtAt text (i + pat.length - 1) < 0 := by omega
        have hge := @uniSkip_progress text pat.length i hneg
        exact ih _ (by omega) (by omega)
    · rw [if_neg hin]

/-- **C4** (counterexample.)  The claim ranges over lines of *any* byte
content.  On the two-byte line `[0, 0]` with the clean two-byte pattern
`"ab"`, the anchor byte `text[i + psize - 1]` is 0: the match comparison
fails, `text[...] > 0` is false, and the unicode `while` loop's condition
`text[...] < 0` is false as well, so `i` never advances — `bmh` loops
forever instead of returning "no match" (`parserResult` exhausts any
fuel). -/
theorem c4_nul_line_cex :
    parserResult [0, 0] [97, 98] = none ∧
    occursB [0, 0] [97, 98] = false := by
  constructor
  · decide
  · decide

/-- **C4** (amended.)  For every non-empty pattern whose bytes are
positive with the high bit clear, and every line whose bytes are C chars
with no NUL among them — which holds for every line the scanner hands the
matcher, lines being NUL-delimited — the selected case-sensitive matcher
(`strstr` for length-1 patterns, `bmh` otherwise) returns, and it returns
a match if and only if the pattern occurs as a contiguous substring of
the line. -/
theorem c4_matcher_amended (pat text : List Int) (hne : pat ≠ [])
    (hclean : ∀ b ∈ pat, 0 < b ∧ b < 128)
    (hrange : ∀ b ∈ text, -128 ≤ b ∧ b < 128)
    (hz : ∀ b ∈ text, b ≠ 0) :
    (pat.length = 1 → preBmhChoice pat = ParserChoice.strstrC) ∧
    (2 ≤ pat.length → preBmhChoice pat = ParserChoice.bmhC) ∧
    ∃ r : Option Nat, parserResult text pat = some r ∧
      r.isSome = occursB text pat := by
  have hp1 : 1 ≤ pat.length := by
    cases pat with
    | nil => exact absurd rfl hne
    | cons a t => simp
  have hnork : ¬((List.range (pat.length - 1)).any
      (fun i => patAt pat i < 0) = true) := by
    intro hcon
    obtain ⟨i, hi, hneg⟩ := List.any_eq_true.mp hcon
    have hilt : i < pat.length := by
      have := List.mem_range.mp hi
      omega
    have := patAt_pos hclean hilt
    have := of_decide_eq_true hneg
    omega
  have hsel1 : pat.length = 1 → preBmhChoice pat = ParserChoice.strstrC := by
    intro h
    rw [preBmhChoice, if_pos h]
  have hsel2 : 2 ≤ pat.length → preBmhChoice pat = ParserChoice.bmhC := by
    intro h
    rw [preBmhChoice, if_neg (by omega), if_neg hnork]
  refine ⟨hsel1, hsel2, ?_⟩
  by_cases hp1e : pat.length = 1
  · refine ⟨strstrFind text pat, ?_, strstrFind_isSome⟩
    simp only [parserResult, hsel1 hp1e]
  · have hp2 : 2 ≤ pat.length := by omega
    cases hocc : occursB text pat with
    | true =>
      obtain ⟨s0, hs0⟩ := occursB_iff.mp hocc
      have hbound := (matchesAt_iff.mp hs0).1
      obtain ⟨r, hr⟩ := bmh_complete hp2 hclean hz hs0 (text.length + 2) 0
        (by omega) (by omega)
      refine ⟨some r, ?_, by simp⟩
      simp only [parserResult, hsel2 hp2]
      rw [bmhRun]
      exact hr
    | false =>
      have hnone : ∀ s, matchesAt text pat s = false := by
        intro s
        cases hval : matchesAt text pat s
        · rfl
        · exact absurd (occursB_iff.mpr ⟨s, hval⟩) (by simp [hocc])
      refine ⟨none, ?_, by simp⟩
      simp only [parserResult, hsel2 hp2]
      rw [bmhRun]
      exact bmh_no_match hp2 hclean hz hnone (text.length + 2) 0 (by omega)
        (by omega)

/-- Witness for `c4_matcher_amended`: pattern `"ab"` on the line
`"bab"`. -/
theorem c4_matcher_amended_witness :
    ∃ r : Option Nat, parserResult [98, 97, 98] [97, 98] = some r ∧
      r.isSome = occursB [98, 97, 98] [97, 98] :=
  (c4_matcher_amended [97, 98] [98, 97, 98] (by decide) (by decide)
    (by decide) (by decide)).2.2

end Ngp
